import Mathlib

set_option maxHeartbeats 1000000

/-! Verification of the fashion-search backend (src/server.js).

JavaScript strings are modelled as Lean `String`, nullable values as `Option`,
and the JS string operations used by the code (trim, toLowerCase, includes,
split) as executable functions on the underlying character lists.  Numbers are
modelled as `ℚ` (the code never relies on floating-point rounding except in
`toFixed(0)`, modelled exactly where it is used). -/

/-- JS falsiness of a string-or-null value: null/undefined and the empty string. -/
def jsFalsy : Option String → Bool
  | none => true
  | some s => s = ""

/-- JS truthiness of a string-or-null value. -/
def jsTruthy (o : Option String) : Bool := !jsFalsy o

/-- Model of the JS idiom `x || d` for a string-or-null `x`: a falsy `x` gives `d`. -/
def jsOr (o : Option String) (d : String) : String :=
  match o with
  | some s => if s = "" then d else s
  | none => d

/-- Model of `x || ''`. -/
def jsStr (o : Option String) : String := jsOr o ""

/-- JS `String.prototype.toLowerCase`, as a character-wise map. -/
def jsToLower (s : String) : String := String.mk (s.data.map Char.toLower)

/-- JS `String.prototype.trim` on a character list: drop whitespace at both ends. -/
def trimChars (cs : List Char) : List Char :=
  ((cs.dropWhile Char.isWhitespace).reverse.dropWhile Char.isWhitespace).reverse

/-- JS `String.prototype.trim`. -/
def jsTrim (s : String) : String := String.mk (trimChars s.data)

/-- JS `String.prototype.includes`: substring containment. -/
def jsIncludes (hay needle : String) : Bool := decide (needle.data <:+: hay.data)

/-- JS `s.split(sep)[0]` for a one-character separator: the part before the
first occurrence of `sep` (the whole string when `sep` does not occur). -/
def beforeFirst (s : String) (sep : Char) : String :=
  String.mk (s.data.takeWhile (fun c => c ≠ sep))

/-- The transient product record flowing through the pipeline (src/server.js):
`title`, `price`, `link`, `source`, `thumbnail` are string-or-null; `priceUpdated`
is the flag the price enhancer sets (absent, i.e. `false`, on provider output). -/
structure Product where
  title : Option String
  price : Option String
  link : Option String
  source : Option String
  thumbnail : Option String
  priceUpdated : Bool := false
deriving DecidableEq, Repr

/-- Aggregator validity check (src/server.js line 695, `!it.title || !it.link`):
items missing a truthy title or link are skipped before the dedup key is made. -/
def validProduct (p : Product) : Bool := jsTruthy p.title && jsTruthy p.link

/-- Aggregator dedup key (src/server.js lines 698-700):
`(it.link || '').split('?')[0].toLowerCase()` joined by a bar with
`(it.title || '').toLowerCase().trim()`. -/
def searchKey (p : Product) : String :=
  jsToLower (beforeFirst (jsStr p.link) '?') ++ "|" ++ jsTrim (jsToLower (jsStr p.title))

/-- The (stripped-lowercased-link, lowercased-trimmed-title) pair underlying
`searchKey`. -/
def searchKeyPair (p : Product) : String × String :=
  (jsToLower (beforeFirst (jsStr p.link) '?'), jsTrim (jsToLower (jsStr p.title)))

/-- Trending dedup key (src/server.js lines 645-647):
`(it.link || '').split('?')[0]` — the link part is NOT lowercased there —
joined by a bar with `(it.title || '').toLowerCase().trim()`. -/
def trendingKey (p : Product) : String :=
  beforeFirst (jsStr p.link) '?' ++ "|" ++ jsTrim (jsToLower (jsStr p.title))

/-- The dedup loop of `searchProducts` (src/server.js lines 692-705), with the
JS `Set` of seen keys made an explicit list. -/
def searchDedupAux (seen : List String) : List Product → List Product
  | [] => []
  | it :: rest =>
    if validProduct it then
      if searchKey it ∈ seen then searchDedupAux seen rest
      else it :: searchDedupAux (searchKey it :: seen) rest
    else searchDedupAux seen rest

/-- The merge-and-dedup step of the Aggregator `searchProducts`. -/
def searchDedup (l : List Product) : List Product := searchDedupAux [] l

/-- The dedup loop of `getTrending` (src/server.js lines 642-651); its input was
already filtered to items with truthy title and link at collection (line 627). -/
def trendingDedupAux (seen : List String) : List Product → List Product
  | [] => []
  | it :: rest =>
    if trendingKey it ∈ seen then trendingDedupAux seen rest
    else it :: trendingDedupAux (trendingKey it :: seen) rest

/-- The merge-and-dedup step of the Trending Discoverer `getTrending`. -/
def trendingDedup (l : List Product) : List Product := trendingDedupAux [] l

/-! The Price Parser `parsePriceToNumber` (src/server.js lines 712-774).

Each JS regex used there is modelled by an executable leftmost-match function
on character lists.  `parseFloat` is modelled exactly on the digit strings the
patterns can produce (optional integer part, optional dot and fraction digits,
NaN as `none`). -/

/-- Value of a list of decimal digit characters. -/
def digitsToNat (ds : List Char) : ℕ :=
  ds.foldl (fun n c => 10 * n + (c.toNat - Char.toNat '0')) 0

/-- Value of the fractional digits after a decimal point. -/
def fracValue (ds : List Char) : ℚ :=
  (digitsToNat ds : ℚ) / ((10 : ℚ) ^ ds.length)

/-- JS `parseFloat` restricted to the candidate strings the price patterns
produce (no sign, no exponent, no leading whitespace): an optional run of
integer digits, an optional dot with an optional run of fraction digits;
`none` models NaN (no digit consumed). -/
def parseFloatChars (cs : List Char) : Option ℚ :=
  match cs.drop (cs.takeWhile Char.isDigit).length with
  | '.' :: r2 =>
    if (cs.takeWhile Char.isDigit).isEmpty && (r2.takeWhile Char.isDigit).isEmpty then
      none
    else
      some ((digitsToNat (cs.takeWhile Char.isDigit) : ℚ) +
        fracValue (r2.takeWhile Char.isDigit))
  | _ =>
    if (cs.takeWhile Char.isDigit).isEmpty then none
    else some ((digitsToNat (cs.takeWhile Char.isDigit) : ℚ))

/-- JS `parseFloat` on a string. -/
def parseFloatJS (s : String) : Option ℚ := parseFloatChars s.data

/-- The currency-symbol class of pattern 1. -/
def isCurrencyChar (c : Char) : Bool := c = '₹' || c = '$' || c = '€' || c = '£'

def isDigitOrComma (c : Char) : Bool := c.isDigit || c = ','

/-- Remove the commas of a captured group (the `replace(/,/g, '')` step). -/
def stripCommas (cs : List Char) : String := String.mk (cs.filter (fun c => c ≠ ','))

/-- Tail of pattern 1 after a currency symbol: whitespace, then a non-empty run
over the digit-or-comma class, then an optional dot followed by exactly two
digits; returns the capture group. -/
def groupedAfterCurrency (cs : List Char) : Option (List Char) :=
  if ((cs.dropWhile Char.isWhitespace).takeWhile isDigitOrComma).isEmpty then none
  else
    match (cs.dropWhile Char.isWhitespace).drop
        ((cs.dropWhile Char.isWhitespace).takeWhile isDigitOrComma).length with
    | '.' :: d1 :: d2 :: _ =>
      if d1.isDigit && d2.isDigit then
        some ((cs.dropWhile Char.isWhitespace).takeWhile isDigitOrComma ++ ['.', d1, d2])
      else some ((cs.dropWhile Char.isWhitespace).takeWhile isDigitOrComma)
    | _ => some ((cs.dropWhile Char.isWhitespace).takeWhile isDigitOrComma)

/-- Pattern 1, src/server.js line 720: leftmost match of a currency symbol,
whitespace, then a grouped number; the capture group is returned. -/
def pattern1Capture : List Char → Option (List Char)
  | [] => none
  | c :: rest =>
    if isCurrencyChar c then
      match groupedAfterCurrency rest with
      | some cap => some cap
      | none => pattern1Capture rest
    else pattern1Capture rest

/-- Greedy star over comma-plus-three-digits chunks, returning the consumed
chunks and the remainder. -/
def commaChunks : List Char → List Char × List Char
  | ',' :: a :: b :: c :: rest =>
    if a.isDigit && b.isDigit && c.isDigit then
      let m := commaChunks rest
      (',' :: a :: b :: c :: m.1, m.2)
    else ([], ',' :: a :: b :: c :: rest)
  | l => ([], l)

/-- The grouped-decimal group `1-to-3 digits, comma-grouped triples, optional
two decimals`, anchored at the head of the input; `none` when the head is not
a digit. -/
def groupedDecimalAt (cs : List Char) : Option (List Char) :=
  if (cs.takeWhile Char.isDigit).isEmpty then none
  else
    match (commaChunks (cs.drop ((cs.takeWhile Char.isDigit).take 3).length)).2 with
    | '.' :: a :: b :: _ =>
      if a.isDigit && b.isDigit then
        some ((cs.takeWhile Char.isDigit).take 3 ++
          (commaChunks (cs.drop ((cs.takeWhile Char.isDigit).take 3).length)).1 ++
          ['.', a, b])
      else
        some ((cs.takeWhile Char.isDigit).take 3 ++
          (commaChunks (cs.drop ((cs.takeWhile Char.isDigit).take 3).length)).1)
    | _ =>
      some ((cs.takeWhile Char.isDigit).take 3 ++
        (commaChunks (cs.drop ((cs.takeWhile Char.isDigit).take 3).length)).1)

/-- Pattern 2 (and the identical pattern 4), src/server.js lines 728 and 744:
leftmost match of the bare grouped decimal.  The match always starts at the
first digit of the string. -/
def pattern2Capture : List Char → Option (List Char)
  | [] => none
  | c :: rest =>
    if c.isDigit then groupedDecimalAt (c :: rest) else pattern2Capture rest

/-- Case-insensitive character comparison against a lowercase letter. -/
def ciIs (c lower : Char) : Bool := c.toLower = lower

/-- Consume an optional letter s (case-insensitive). -/
def optS : List Char → List Char
  | s :: r2 => if ciIs s 's' then r2 else s :: r2
  | [] => []

/-- Consume an optional dot. -/
def optDot : List Char → List Char
  | '.' :: r3 => r3
  | l => l

/-- Consume an optional colon and the whitespace after it. -/
def optColon : List Char → List Char
  | ':' :: t => t.dropWhile Char.isWhitespace
  | l => l

/-- Labelled-price lead-in `Rs`-style of pattern 3: the letter r, an optional s,
an optional dot, then whitespace; returns the remainder. -/
def rsLead : List Char → Option (List Char)
  | c :: rest =>
    if ciIs c 'r' then some ((optDot (optS rest)).dropWhile Char.isWhitespace)
    else none
  | [] => none

/-- Labelled-price lead-in `rupee sign plus whitespace` of pattern 3. -/
def rupeeLead (cs : List Char) : Option (List Char) :=
  match cs with
  | '₹' :: rest => some (rest.dropWhile Char.isWhitespace)
  | _ => none

/-- Case-insensitive literal word match, returning the remainder. -/
def ciWord : List Char → List Char → Option (List Char)
  | [], cs => some cs
  | _ :: _, [] => none
  | w :: ws, c :: cs => if ciIs c w then ciWord ws cs else none

/-- Labelled-price lead-in `word, whitespace, optional colon, whitespace` of
pattern 3 (for the words price and cost). -/
def wordLead (w : List Char) (cs : List Char) : Option (List Char) :=
  match ciWord w cs with
  | some r1 => some (optColon (r1.dropWhile Char.isWhitespace))
  | none => none

/-- One position of pattern 3, src/server.js line 736: try each lead-in
alternative in order, then require the grouped decimal right after (the
trailing optional suffix group does not affect the capture). -/
def pattern3At (cs : List Char) : Option (List Char) :=
  ((rsLead cs).bind groupedDecimalAt) <|>
  ((rupeeLead cs).bind groupedDecimalAt) <|>
  ((wordLead ['p', 'r', 'i', 'c', 'e'] cs).bind groupedDecimalAt) <|>
  ((wordLead ['c', 'o', 's', 't'] cs).bind groupedDecimalAt)

/-- Pattern 3: leftmost position where `pattern3At` succeeds. -/
def pattern3Capture : List Char → Option (List Char)
  | [] => none
  | c :: rest =>
    match pattern3At (c :: rest) with
    | some cap => some cap
    | none => pattern3Capture rest

/-- Structural scan collecting maximal digit runs; `cur` is the reversed run
in progress. -/
def digitRunsAux : List Char → List Char → List (List Char)
  | [], cur => if cur.isEmpty then [] else [cur.reverse]
  | c :: rest, cur =>
    if c.isDigit then digitRunsAux rest (c :: cur)
    else if cur.isEmpty then digitRunsAux rest [] else cur.reverse :: digitRunsAux rest []

/-- The maximal digit runs of a string, in order (the `/\d{3,}/g` scan keeps
those of length at least three). -/
def digitRuns (cs : List Char) : List (List Char) := digitRunsAux cs []

/-- Pattern 5, src/server.js lines 752-764: all embedded runs of three or more
digits, kept when strictly between 100 and 1,000,000, sorted ascending; the
element at index `floor(length / 2)` is returned. -/
def pattern5Value (cs : List Char) : Option ℚ :=
  let runs := (digitRuns cs).filter (fun r => 3 ≤ r.length)
  if runs.isEmpty then none
  else
    let cands := (runs.map digitsToNat).filter (fun n => 100 < n ∧ n < 1000000)
    if cands.isEmpty then none
    else
      let sorted := List.insertionSort (fun a b => a ≤ b) cands
      some ((sorted.getD (sorted.length / 2) 0 : ℕ) : ℚ)

/-- The final fallback `/(\d+\.?\d*)/`, src/server.js line 767: leftmost digit,
the full digit run, an optional dot and further digits. -/
def fallbackCapture : List Char → Option (List Char)
  | [] => none
  | c :: rest =>
    if c.isDigit then
      let d := (c :: rest).takeWhile Char.isDigit
      match (c :: rest).drop d.length with
      | '.' :: r2 => some (d ++ '.' :: r2.takeWhile Char.isDigit)
      | _ => some d
    else fallbackCapture rest

/-- The Price Parser on an actual string (src/server.js lines 716-773): the
five patterns and the final fallback are tried in order; a pattern whose parsed
number is NaN falls through to the next (`Number.isFinite` guard). -/
def parsePriceString (price : String) : Option ℚ :=
  match (pattern1Capture (trimChars price.data)).bind
      (fun cap => parseFloatJS (stripCommas cap)) with
  | some v => some v
  | none =>
  match (pattern2Capture (trimChars price.data)).bind
      (fun cap => parseFloatJS (stripCommas cap)) with
  | some v => some v
  | none =>
  match (pattern3Capture (trimChars price.data)).bind
      (fun cap => parseFloatJS (stripCommas cap)) with
  | some v => some v
  | none =>
  match (pattern2Capture (trimChars price.data)).bind
      (fun cap => parseFloatJS (stripCommas cap)) with
  | some v => some v
  | none =>
  match pattern5Value (trimChars price.data) with
  | some v => some v
  | none =>
  (fallbackCapture (trimChars price.data)).bind
    (fun cap => parseFloatJS (String.mk cap))

/-- `parsePriceToNumber` (src/server.js lines 712-774): null gives null, a
number is passed through, a string is parsed by the pattern cascade. -/
def parsePriceToNumber : Option (ℚ ⊕ String) → Option ℚ
  | none => none
  | some (Sum.inl n) => some n
  | some (Sum.inr s) => parsePriceString s

/-- The parser applied to a product price field (string-or-null). -/
def parsePriceOfStr (o : Option String) : Option ℚ :=
  parsePriceToNumber (o.map Sum.inr)

/-! Normalization, filtering and sorting (src/server.js lines 776-891). -/

/-- The normalized product of `normalizeProduct` (src/server.js lines 776-786):
the product plus `priceNumber` and the lowercase shadow copies. -/
structure NormProduct where
  base : Product
  priceNumber : Option ℚ
  titleLower : String
  sourceLower : String
  linkLower : String
deriving DecidableEq, Repr

/-- `normalizeProduct` (src/server.js lines 776-786). -/
def normalizeProduct (p : Product) : NormProduct :=
  { base := p
    priceNumber := parsePriceOfStr p.price
    titleLower := jsToLower (jsStr p.title)
    sourceLower := jsToLower (jsStr p.source)
    linkLower := jsToLower (jsStr p.link) }

/-- The filter parameters of `applyFilters` after `toArray`/`Number` coercion:
price bounds are numbers-or-null (`null`/empty input gives `none`), the facet
token lists are already split. -/
structure Filters where
  minPrice : Option ℚ
  maxPrice : Option ℚ
  colors : List String
  sizes : List String
  brands : List String

/-- The price test of `applyFilters` (src/server.js lines 806-807): a known
price below `minPrice` or above `maxPrice` rejects; an unknown price passes
both guards. -/
def priceBoundsPass (minP maxP : Option ℚ) (pn : Option ℚ) : Bool :=
  match pn with
  | none => true
  | some q =>
    (match minP with
     | some m => !(q < m)
     | none => true) &&
    (match maxP with
     | some m => !(m < q)
     | none => true)

/-- The color/size/brand tests of `applyFilters` (src/server.js lines 809-821):
substring matches against the lowercase shadows, OR within a facet, AND across
facets; an empty facet list does not constrain. -/
def facetsPass (p : NormProduct) (colors sizes brands : List String) : Bool :=
  (colors.isEmpty || colors.any (fun c => jsIncludes p.titleLower (jsToLower c))) &&
  (sizes.isEmpty || sizes.any (fun s => jsIncludes p.titleLower (jsToLower s))) &&
  (brands.isEmpty ||
    brands.any (fun b =>
      jsIncludes (p.titleLower ++ " " ++ p.sourceLower ++ " " ++ p.linkLower) (jsToLower b)))

/-- `applyFilters` (src/server.js lines 797-824). -/
def applyFilters (products : List NormProduct) (f : Filters) : List NormProduct :=
  products.filter (fun p =>
    priceBoundsPass f.minPrice f.maxPrice p.priceNumber &&
    facetsPass p f.colors f.sizes f.brands)

/-- The JS price comparator of `applySort` (src/server.js lines 878-884):
nulls compare equal to each other and after any number; numbers compare by
`(pa - pb) * dir`. -/
def jsPriceCmp (dir : ℚ) : Option ℚ → Option ℚ → ℚ
  | none, none => 0
  | none, some _ => 1
  | some _, none => -1
  | some x, some y => (x - y) * dir

/-- The total preorder induced by the comparator: `a` before `b` when the
comparator is non-positive. -/
def sortRel (dir : ℚ) (a b : NormProduct) : Prop :=
  jsPriceCmp dir a.priceNumber b.priceNumber ≤ 0

instance (dir : ℚ) : DecidableRel (sortRel dir) := fun a b =>
  inferInstanceAs (Decidable (_ ≤ _))

instance (dir : ℚ) : IsTotal NormProduct (sortRel dir) where
  total a b := by
    unfold sortRel jsPriceCmp
    rcases a.priceNumber with _ | x <;> rcases b.priceNumber with _ | y <;> simp
    rcases le_total ((x - y) * dir) 0 with h | h
    · exact Or.inl h
    · exact Or.inr (by nlinarith)

instance (dir : ℚ) : IsTrans NormProduct (sortRel dir) where
  trans a b c := by
    unfold sortRel jsPriceCmp
    rcases a.priceNumber with _ | x <;> rcases b.priceNumber with _ | y <;>
        rcases c.priceNumber with _ | z <;> simp
    intro h1 h2
    nlinarith

/-- `applySort` (src/server.js lines 874-887): an explicit price sort runs the
JS array sort with the comparator above (modelled by a stable sort that orders
by the comparator, which is all `Array.prototype.sort` guarantees); any other
`sortBy` returns the list unchanged. -/
def applySort (products : List NormProduct) (sortBy sortOrder : Option String) :
    List NormProduct :=
  let ord := jsToLower (jsOr sortOrder "asc")
  let dir : ℚ := if ord = "desc" then -1 else 1
  if jsToLower (jsOr sortBy "") = "price" then
    List.insertionSort (sortRel dir) products
  else products

/-! The Query Normalizer (src/server.js lines 153-335) and the query derivation
of the search route (src/server.js lines 1938-2161). -/

/-- Model of a `fetch` bounded (or not) by an `AbortController` timeout: given
the network delay in milliseconds, the elapsed time until the call settles and
whether it was aborted. -/
def fetchWithTimeout (timeoutMs : Option ℕ) (networkDelayMs : ℕ) : ℕ × Bool :=
  match timeoutMs with
  | none => (networkDelayMs, false)
  | some t => if networkDelayMs ≤ t then (networkDelayMs, false) else (t, true)

/-- The text entry point `queryGeminiFromText` issues its fetch with no abort
signal and no timer (src/server.js lines 211-215). -/
def geminiTextTimeoutMs : Option ℕ := none

/-- The image entry point `queryGeminiFromImage` arms a 10-second abort timer
around its fetch (src/server.js lines 290-300). -/
def geminiImageTimeoutMs : Option ℕ := some 10000

/-- The refusal/hedge phrases rejected by `queryGeminiFromText`
(src/server.js lines 226-233). -/
def refusalPhrasesText : List String :=
  ["cannot provide", "no shopping query", "cannot analyze", "unable to",
   "error", "sorry", "i cannot", "i don\x27t understand"]

/-- Output validation of `queryGeminiFromText` (src/server.js lines 222-237):
an empty parse, a refusal phrase, or a length under 3 or over 200 throws
(modelled as `none`); otherwise the output is returned as-is. -/
def validateGeminiTextOut (out : String) : Option String :=
  if out = "" then none
  else if refusalPhrasesText.any (fun ph => jsIncludes (jsToLower out) ph) ||
      out.data.length < 3 || 200 < out.data.length then none
  else some out

/-- The refusal/hedge phrases rejected by `queryGeminiFromImage`
(src/server.js lines 314-323). -/
def refusalPhrasesImage : List String :=
  ["cannot provide", "no shopping query", "cannot analyze", "unable to",
   "error", "sorry", "i cannot", "i don\x27t see", "no clothing", "no fashion"]

/-- Output validation of `queryGeminiFromImage` (src/server.js lines 310-327):
as for text but with the image phrase list and a minimum length of 5. -/
def validateGeminiImageOut (out : String) : Option String :=
  if out = "" then none
  else if refusalPhrasesImage.any (fun ph => jsIncludes (jsToLower out) ph) ||
      out.data.length < 5 || 200 < out.data.length then none
  else some out

/-- The fashion-term vocabulary of the text fallback (src/server.js line 1960). -/
def fallbackFashionTerms : List String :=
  ["shirt", "dress", "pant", "jean", "shoe", "bag", "jacket", "coat", "skirt",
   "top", "blouse", "sneaker", "boot", "handbag", "purse", "jewelry", "accessory"]

/-- The style-term vocabulary of the text fallback (src/server.js line 1964). -/
def fallbackStyleTerms : List String :=
  ["summer", "winter", "spring", "autumn", "casual", "formal", "party",
   "elegant", "sporty", "vintage", "modern", "classic", "trendy", "outfit",
   "clothes", "clothing", "wear", "style", "beach", "office", "weekend",
   "everyday", "seasonal", "light", "warm", "professional", "relaxed", "attire"]

/-- The canned seasonal/occasion expansions shared by the fallback chains
(src/server.js lines 1972-1994, repeated at 2002-2024 and 2084-2106); `dflt` is
the final else branch, which differs between the three occurrences. -/
def seasonalExpansion (t : String) (dflt : String) : String :=
  if jsIncludes t "summer" then
    "summer dresses summer shirts summer pants summer shorts casual wear"
  else if jsIncludes t "winter" then
    "winter jackets winter sweaters winter pants winter coats warm wear"
  else if jsIncludes t "spring" then
    "spring dresses spring tops spring jackets spring pants light wear"
  else if jsIncludes t "autumn" || jsIncludes t "fall" then
    "autumn jackets autumn sweaters autumn dresses autumn pants seasonal wear"
  else if jsIncludes t "casual" then
    "casual t-shirts casual jeans casual dresses casual shirts everyday wear"
  else if jsIncludes t "party" then
    "party dresses party shirts party pants elegant formal wear"
  else if jsIncludes t "formal" then
    "formal shirts formal pants formal dresses professional wear"
  else if jsIncludes t "beach" then
    "beach dresses beach shorts beach shirts beach wear summer casual"
  else if jsIncludes t "office" then
    "office shirts office pants office dresses professional formal wear"
  else if jsIncludes t "weekend" then
    "weekend t-shirts weekend jeans weekend dresses casual relaxed wear"
  else dflt

/-- The deterministic text fallback of the search route (src/server.js lines
1956-2029), on `originalText = text.trim().toLowerCase()`. -/
def textFallback (originalText : String) : String :=
  if (fallbackFashionTerms.any fun t => jsIncludes originalText t) &&
      (fallbackStyleTerms.any fun t => jsIncludes originalText t) then
    originalText ++ " fashion clothing"
  else if fallbackStyleTerms.any fun t => jsIncludes originalText t then
    seasonalExpansion originalText (originalText ++ " fashion clothing style")
  else if fallbackFashionTerms.any fun t => jsIncludes originalText t then
    originalText ++ " fashion style"
  else if jsIncludes originalText "outfit" || jsIncludes originalText "clothes" ||
      jsIncludes originalText "clothing" || jsIncludes originalText "wear" then
    seasonalExpansion originalText
      "fashion dresses fashion shirts fashion pants trendy clothing"
  else originalText ++ " fashion clothing style"

/-- The caption-using branch of the image fallback (src/server.js lines
2056-2111), on `improvedText = text.trim().toLowerCase()`. -/
def imageCaptionFallback (improvedText : String) : String :=
  if jsIncludes improvedText "shirt" || jsIncludes improvedText "top" ||
      jsIncludes improvedText "blouse" || jsIncludes improvedText "tee" then
    improvedText ++ " clothing fashion casual wear"
  else if jsIncludes improvedText "pant" || jsIncludes improvedText "jean" ||
      jsIncludes improvedText "trouser" || jsIncludes improvedText "legging" then
    improvedText ++ " bottoms fashion casual wear"
  else if jsIncludes improvedText "dress" || jsIncludes improvedText "gown" ||
      jsIncludes improvedText "frock" then
    improvedText ++ " women fashion casual elegant"
  else if jsIncludes improvedText "shoe" || jsIncludes improvedText "sneaker" ||
      jsIncludes improvedText "boot" || jsIncludes improvedText "footwear" then
    improvedText ++ " footwear fashion casual"
  else if jsIncludes improvedText "bag" || jsIncludes improvedText "purse" ||
      jsIncludes improvedText "handbag" || jsIncludes improvedText "backpack" then
    improvedText ++ " accessories fashion"
  else if jsIncludes improvedText "jacket" || jsIncludes improvedText "coat" ||
      jsIncludes improvedText "blazer" then
    improvedText ++ " outerwear fashion casual formal"
  else if jsIncludes improvedText "skirt" || jsIncludes improvedText "short" then
    improvedText ++ " women fashion casual"
  else if jsIncludes improvedText "jewelry" || jsIncludes improvedText "necklace" ||
      jsIncludes improvedText "earring" || jsIncludes improvedText "ring" then
    improvedText ++ " accessories fashion jewelry"
  else if fallbackStyleTerms.any (fun t => jsIncludes improvedText t) then
    seasonalExpansion improvedText (improvedText ++ " fashion clothing style")
  else improvedText ++ " fashion clothing style trendy"

/-- The URL-clue extraction of the image fallback (src/server.js lines
2117-2131), on the lowercased image URL. -/
def imageUrlClues (imageUrlLower : String) : String :=
  if jsIncludes imageUrlLower "shirt" || jsIncludes imageUrlLower "top" ||
      jsIncludes imageUrlLower "tee" then "shirt top clothing"
  else if jsIncludes imageUrlLower "dress" || jsIncludes imageUrlLower "gown" then
    "dress women fashion"
  else if jsIncludes imageUrlLower "pant" || jsIncludes imageUrlLower "jean" then
    "pants jeans bottoms"
  else if jsIncludes imageUrlLower "shoe" || jsIncludes imageUrlLower "sneaker" ||
      jsIncludes imageUrlLower "boot" then "shoes footwear"
  else if jsIncludes imageUrlLower "bag" || jsIncludes imageUrlLower "purse" ||
      jsIncludes imageUrlLower "handbag" then "bag accessories"
  else if jsIncludes imageUrlLower "jacket" || jsIncludes imageUrlLower "coat" then
    "jacket coat outerwear"
  else ""

/-- The deterministic image fallback of the search route (src/server.js lines
2055-2154): the caption chain when a truthy trimmed caption exists, otherwise
URL clues, then the byte-size heuristic. -/
def imageFallback (text imageUrl : String) (imageBufferSize : Option ℕ) : String :=
  if jsTrim text ≠ "" then imageCaptionFallback (jsToLower (jsTrim text))
  else if imageUrlClues (jsToLower imageUrl) ≠ "" then
    imageUrlClues (jsToLower imageUrl) ++ " fashion style"
  else if 200000 < imageBufferSize.getD 0 then
    "fashion clothing outfit style casual wear trendy"
  else if 50000 < imageBufferSize.getD 0 then "fashion clothing style casual wear"
  else if imageBufferSize.getD 0 < 20000 then "fashion accessories jewelry bags shoes"
  else "fashion clothing style trendy casual wear"

/-- The query derivation of `app.post` on the search path (src/server.js lines
1924-2161).  `text` and `imageUrl` are the request fields with the empty string
for absent; `imageBufferSize` is the uploaded file size when a file was sent;
`aiTextRaw`/`aiImageRaw` are the raw completions of the external model calls,
`none` when the call fails at the network level (error, timeout, abort,
invalid image data).  `none` as a whole models the immediate 400 rejection
when no search signal was provided; otherwise the derived `searchQuery` handed
to `searchProducts` is returned. -/
def deriveSearchQuery (useRaw : Bool) (text imageUrl : String)
    (imageBufferSize : Option ℕ) (aiTextRaw aiImageRaw : Option String) :
    Option String :=
  if text = "" ∧ imageUrl = "" ∧ imageBufferSize = none then none
  else some (
    if useRaw && jsTrim text ≠ "" then jsTrim text
    else if jsTrim text ≠ "" then
      match aiTextRaw.bind validateGeminiTextOut with
      | some q => q
      | none => textFallback (jsToLower (jsTrim text))
    else if imageBufferSize.isSome || imageUrl ≠ "" then
      match aiImageRaw.bind validateGeminiImageOut with
      | some q => q
      | none => imageFallback text imageUrl imageBufferSize
    else "fashion clothing")

/-! The Price Enhancer (src/server.js lines 894-932 and 1216-1284). -/

/-- Decimal digit character for a value below ten. -/
def digitChar (d : ℕ) : Char := Char.ofNat (48 + d)

/-- Decimal digits of a natural number; the first argument is structural fuel
(any fuel above the number of digits gives the same result). -/
def natDigitsAux : ℕ → ℕ → List Char
  | 0, _ => []
  | fuel + 1, n =>
    if n < 10 then [digitChar n]
    else natDigitsAux fuel (n / 10) ++ [digitChar (n % 10)]

/-- Decimal digits of a natural number. -/
def natDigits (n : ℕ) : List Char := natDigitsAux (n + 1) n

/-- Decimal rendering of a natural number (the template-literal interpolation
of a JS integer). -/
def natToStr (n : ℕ) : String := String.mk (natDigits n)

/-- JS `Number.prototype.toFixed(0)` on the non-negative values the enhancer
produces: round to the nearest integer, ties to the larger. -/
def toFixed0 (v : ℚ) : ℕ := (v + 1 / 2).floor.toNat

/-- `fetchRealTimePrice` (src/server.js lines 894-932).  The per-source scraper
dispatch and its network fetches (`fetchAmazonPrice` through
`fetchSnapdealPrice`, each returning an integer number of rupees or null),
together with the caller-side 2-second `Promise.race`, are abstracted by the
`scrape` oracle: `none` covers an unrecognized source, a scrape failure and a
timeout.  A zero result is falsy in JS (`if (price)`) and leaves the product
unchanged; a positive result rewrites the price to the rupee-sign-plus-integer
form and sets `priceUpdated`. -/
def fetchRealTimePrice (scrape : Product → Option ℕ) (p : Product) : Product :=
  if jsFalsy p.link then p
  else
    match scrape p with
    | some n =>
      if 0 < n then
        { p with price := some ("₹" ++ natToStr n), priceUpdated := true }
      else p
    | none => p

/-- The price-missing test opening the title-extraction branch
(src/server.js line 1249): falsy price or the literal strings null/undefined. -/
def jsPriceMissing (price : Option String) : Bool :=
  jsFalsy price || price == some "null" || price == some "undefined"

/-- The primary title price pattern (src/server.js line 1253),
an optional rupee sign and whitespace then the grouped decimal: the optional
lead never changes the captured group, which is the grouped decimal starting
at the first digit of the title — exactly the pattern 2 capture. -/
def titlePriceCapture (t : String) : Option (List Char) := pattern2Capture t.data

/-- The alternative labelled title pattern (src/server.js line 1261): the
pattern 3 lead-ins without the cost alternative, then the grouped decimal. -/
def titleAltCapture : List Char → Option (List Char)
  | [] => none
  | c :: rest =>
    match ((rsLead (c :: rest)).bind groupedDecimalAt) <|>
        ((rupeeLead (c :: rest)).bind groupedDecimalAt) <|>
        ((wordLead ['p', 'r', 'i', 'c', 'e'] (c :: rest)).bind groupedDecimalAt) with
    | some cap => some cap
    | none => titleAltCapture rest

/-- The final formatting step (src/server.js lines 1270-1276): when the price
is truthy and not the null/undefined literals, strip currency symbols, trim,
and when the remainder parses, rewrite to the rupee sign plus the `toFixed(0)`
integer. -/
def formatPriceBlock (q : Product) : Product :=
  match q.price with
  | some pr =>
    if pr ≠ "" ∧ pr ≠ "null" ∧ pr ≠ "undefined" then
      if jsTrim (String.mk (pr.data.filter (fun c => !isCurrencyChar c))) ≠ "" then
        match parseFloatJS (jsTrim (String.mk (pr.data.filter (fun c => !isCurrencyChar c)))) with
        | some v => { q with price := some ("₹" ++ natToStr (toFixed0 v)) }
        | none => q
      else q
    else q
  | none => q

/-- The capture of the title-extraction pass (primary pattern, then the
labelled one; a null title never matches). -/
def titleCaptureOf (p : Product) : Option (List Char) :=
  match p.title with
  | some t =>
    match titlePriceCapture t with
    | some c => some c
    | none => titleAltCapture t.data
  | none => none

/-- Write the captured title price (commas removed, rupee sign prefixed) and
set `priceUpdated`; no capture leaves the product unchanged. -/
def titleApply (p : Product) : Product :=
  match titleCaptureOf p with
  | some c => { p with price := some ("₹" ++ stripCommas c), priceUpdated := true }
  | none => p

/-- One iteration of the title-extraction pass (src/server.js lines 1248-1280):
products whose price is missing get a price extracted from the title (primary
pattern, then the labelled one), the commas removed, and the formatting step
applied; other products pass through unchanged. -/
def titleExtractStage (p : Product) : Product :=
  if jsPriceMissing p.price then formatPriceBlock (titleApply p) else p

/-- The scrape loop of `enhanceProductPrices` (src/server.js lines 1222-1245):
the first five products with a truthy link are raced against the scraper; a
settled result carrying `priceUpdated` is written back at
`products.indexOf(...)` (reference identity in JS, first structural match
here — the two agree on duplicate-free lists such as deduplicated results). -/
def scrapeStep (scrape : Product → Option ℕ) (products acc : List Product)
    (t : Product) : List Product :=
  if (fetchRealTimePrice scrape t).priceUpdated then
    match products.findIdx? (fun x => x == t) with
    | some oi => acc.set oi (fetchRealTimePrice scrape t)
    | none => acc
  else acc

def scrapePhase (scrape : Product → Option ℕ) (products : List Product) :
    List Product :=
  ((products.take 5).filter (fun p => jsTruthy p.link)).foldl
    (scrapeStep scrape products) products

/-- `enhanceProductPrices` (src/server.js lines 1216-1284): the scrape loop,
then the title-extraction pass over every element. -/
def enhanceProductPrices (scrape : Product → Option ℕ) (products : List Product) :
    List Product :=
  (scrapePhase scrape products).map titleExtractStage

/-- The canonical display format the spec claims for final prices: a single
rupee sign followed by a non-empty run of digits, no decimals. -/
def isCanonicalPrice (s : String) : Bool :=
  match s.data with
  | '₹' :: rest => !rest.isEmpty && rest.all Char.isDigit
  | _ => false

/-! The Comparison Builder `generateComparisonData`
(src/server.js lines 1287-1372). -/

structure PriceStats where
  min : ℚ
  max : ℚ
  avg : ℚ
  total : ℚ
  count : ℕ
deriving DecidableEq, Repr

structure PriceRange where
  lowest : ℚ
  highest : ℚ
  difference : ℚ
deriving DecidableEq, Repr

structure Deal where
  company : String
  product : Product
  price : Option ℚ
deriving DecidableEq, Repr

/-- The comparison object.  `totalProducts` and `priceRange` are wrapped in an
outer `Option` whose `none` means the KEY IS ABSENT from the returned JS
object (`undefined` on access); for `priceRange` the inner `Option` is the
explicit null of the key when present. -/
structure ComparisonData where
  companies : List String
  companyGroups : List (String × List Product)
  priceStats : Option PriceStats
  bestDeals : List Deal
  totalProducts : Option ℕ
  priceRange : Option (Option PriceRange)
deriving DecidableEq, Repr

/-- Price-statistics accumulator; the JS `Infinity`/`-Infinity` seeds are
modelled as `none` (they are read only when `count > 0`, after at least one
`Math.min`/`Math.max`). -/
structure StatsAcc where
  min? : Option ℚ
  max? : Option ℚ
  total : ℚ
  count : ℕ

/-- One step of the statistics fold (src/server.js lines 1314-1321). -/
def statsStep (acc : StatsAcc) (p : Product) : StatsAcc :=
  match parsePriceOfStr p.price with
  | some v =>
    { min? := some (match acc.min? with | some m => Min.min m v | none => v)
      max? := some (match acc.max? with | some m => Max.max m v | none => v)
      total := acc.total + v
      count := acc.count + 1 }
  | none => acc

/-- Insert a product into its company group, JS object key-insertion order
(src/server.js lines 1307-1312). -/
def addToGroups (gs : List (String × List Product)) (src : String) (p : Product) :
    List (String × List Product) :=
  if gs.any (fun g => g.1 == src) then
    gs.map (fun g => if g.1 == src then (g.1, g.2 ++ [p]) else g)
  else gs ++ [(src, [p])]

/-- The `reduce` finding the cheapest priced product of a group
(src/server.js lines 1342-1346); both prices are non-null on this path, `getD`
is only the `Option` lift. -/
def cheapestOf (h : Product) (t : List Product) : Product :=
  t.foldl
    (fun m p =>
      if (parsePriceOfStr p.price).getD 0 < (parsePriceOfStr m.price).getD 0 then p
      else m)
    h

/-- The ascending-by-price order of the best-deals sort
(src/server.js line 1353, comparator `a.price - b.price`). -/
def dealLE (a b : Deal) : Prop := a.price.getD 0 ≤ b.price.getD 0

instance : DecidableRel dealLE := fun a b => inferInstanceAs (Decidable (_ ≤ _))

/-- Best deals: one entry per company with a priced product, sorted ascending
by price (src/server.js lines 1334-1353). -/
def bestDealsOf (gs : List (String × List Product)) : List Deal :=
  let deals := gs.filterMap (fun g =>
    match g.2.filter (fun p => (parsePriceOfStr p.price).isSome) with
    | [] => none
    | h :: t =>
      let lowest := cheapestOf h t
      some ⟨g.1, lowest, parsePriceOfStr lowest.price⟩)
  List.insertionSort dealLE deals

/-- Group size by company name. -/
def groupLen (gs : List (String × List Product)) (k : String) : ℕ :=
  match gs.find? (fun g => g.1 == k) with
  | some g => g.2.length
  | none => 0

/-- The descending-by-product-count order of the companies sort
(src/server.js lines 1356-1358, comparator on group lengths). -/
def companyCountRel (gs : List (String × List Product)) (a b : String) : Prop :=
  groupLen gs b ≤ groupLen gs a

instance (gs : List (String × List Product)) : DecidableRel (companyCountRel gs) :=
  fun a b => inferInstanceAs (Decidable (_ ≤ _))

/-- `generateComparisonData` (src/server.js lines 1287-1372).  Note the early
return for an empty input (lines 1288-1295) carries NO `totalProducts` and NO
`priceRange` key, while the general return (lines 1360-1371) carries both. -/
def generateComparisonData (products : List Product) : ComparisonData :=
  if products.isEmpty then
    { companies := []
      companyGroups := []
      priceStats := none
      bestDeals := []
      totalProducts := none
      priceRange := none }
  else
    let groups := products.foldl (fun gs p => addToGroups gs (jsOr p.source "Unknown") p) []
    let stats := products.foldl statsStep ⟨none, none, 0, 0⟩
    { companies := List.insertionSort (companyCountRel groups) (groups.map (fun g => g.1))
      companyGroups := groups
      priceStats :=
        if 0 < stats.count then
          some ⟨stats.min?.getD 0, stats.max?.getD 0, stats.total / (stats.count : ℚ),
            stats.total, stats.count⟩
        else none
      bestDeals := bestDealsOf groups
      totalProducts := some products.length
      priceRange :=
        some (if 0 < stats.count then
          some ⟨stats.min?.getD 0, stats.max?.getD 0, stats.max?.getD 0 - stats.min?.getD 0⟩
        else none) }

/-! Helper lemmas. -/

/-- A non-empty suffix keeps an appended string non-empty. -/
theorem append_ne_empty_of_right (s t : String) (h : t ≠ "") : s ++ t ≠ "" := by
  intro hc
  have hd : s.data ++ t.data = [] := congrArg String.data hc
  rcases List.append_eq_nil.mp hd with ⟨-, h2⟩
  exact h (congrArg String.mk h2)

theorem mem_of_mem_dropWhile {p : Char → Bool} {c : Char} {l : List Char}
    (h : c ∈ l.dropWhile p) : c ∈ l :=
  (List.dropWhile_sublist p).mem h

theorem mem_of_mem_takeWhile {p : Char → Bool} {c : Char} {l : List Char}
    (h : c ∈ l.takeWhile p) : c ∈ l :=
  (List.takeWhile_sublist p).mem h

theorem mem_of_mem_drop {c : Char} {l : List Char} {n : ℕ} (h : c ∈ l.drop n) :
    c ∈ l :=
  (List.drop_sublist n l).mem h

/-- An element not satisfying the predicate survives `dropWhile`. -/
theorem mem_dropWhile_of_mem {p : Char → Bool} {c : Char} {l : List Char}
    (hc : c ∈ l) (hp : p c = false) : c ∈ l.dropWhile p := by
  induction l with
  | nil => cases hc
  | cons a t ih =>
    by_cases ha : p a
    · rw [List.dropWhile_cons_of_pos ha]
      rcases List.mem_cons.mp hc with rfl | hm
      · exact absurd ha (by simp [hp])
      · exact ih hm
    · rw [List.dropWhile_cons_of_neg ha]
      exact hc

/-- A non-whitespace character of a string survives the JS trim. -/
theorem mem_trimChars_of_mem {c : Char} {l : List Char}
    (hc : c ∈ l) (hw : c.isWhitespace = false) : c ∈ trimChars l := by
  unfold trimChars
  rw [List.mem_reverse]
  apply mem_dropWhile_of_mem _ hw
  rw [List.mem_reverse]
  exact mem_dropWhile_of_mem hc hw

theorem mem_of_mem_trimChars {c : Char} {l : List Char}
    (h : c ∈ trimChars l) : c ∈ l := by
  unfold trimChars at h
  rw [List.mem_reverse] at h
  have h2 := mem_of_mem_dropWhile h
  rw [List.mem_reverse] at h2
  exact mem_of_mem_dropWhile h2

/-! Claim C3: the Comparison Builder on the empty list. -/

/-- C3: `generateComparisonData []` returns the early-return object of
src/server.js lines 1288-1295, which carries only `companies`,
`companyGroups`, `priceStats` and `bestDeals`; the `totalProducts` and
`priceRange` keys are ABSENT (`none` in the model), not `totalProducts = 0`
and `priceRange = null` as the claim (and the frontend `ComparisonData` type)
state. -/
theorem C3_empty_comparison_shape :
    generateComparisonData [] =
      { companies := [], companyGroups := [], priceStats := none, bestDeals := [],
        totalProducts := none, priceRange := none } ∧
    (generateComparisonData []).totalProducts ≠ some 0 ∧
    (generateComparisonData []).priceRange ≠ some none := by
  refine ⟨rfl, by decide, by decide⟩

/-! Claim C7: timeouts of the two Gemini entry points. -/

/-- C7 counterexample: the text entry point `queryGeminiFromText` issues its
fetch with no abort timer (src/server.js lines 211-215), so its elapsed time
equals the network delay and is not bounded by 10 seconds: a one-hour network
delay makes the call take one hour. -/
theorem C7_counterexample :
    geminiTextTimeoutMs = none ∧
    fetchWithTimeout geminiTextTimeoutMs 3600000 = (3600000, false) ∧
    ¬ (fetchWithTimeout geminiTextTimeoutMs 3600000).1 ≤ 10000 := by
  refine ⟨rfl, rfl, by decide⟩

/-- C7 amended: only the image entry point is bounded by the 10-second abort
timer; the text entry point waits the full network delay.  In both entry
points a failed or invalid AI call (modelled as `none` raw output, covering
network error, timeout and abort) makes the search route fall back to the
deterministic heuristic instead of propagating an error. -/
theorem C7_amended :
    (∀ d, (fetchWithTimeout geminiImageTimeoutMs d).1 ≤ 10000) ∧
    (∀ d, fetchWithTimeout geminiTextTimeoutMs d = (d, false)) ∧
    (∀ text imageUrl ibs aiImageRaw, jsTrim text ≠ "" →
      deriveSearchQuery false text imageUrl ibs none aiImageRaw =
        some (textFallback (jsToLower (jsTrim text)))) ∧
    (∀ text imageUrl ibs, jsTrim text = "" → (ibs.isSome ∨ imageUrl ≠ "") →
      deriveSearchQuery false text imageUrl ibs none none =
        some (imageFallback text imageUrl ibs)) := by
  refine ⟨?_, ?_, ?_, ?_⟩
  · intro d
    simp only [geminiImageTimeoutMs, fetchWithTimeout]
    split
    · omega
    · simp
  · intro d
    rfl
  · intro text imageUrl ibs aiImageRaw ht
    have htext : text ≠ "" := by
      intro hc
      subst hc
      exact ht rfl
    unfold deriveSearchQuery
    simp [htext, ht]
  · intro text imageUrl ibs ht him
    unfold deriveSearchQuery
    rcases him with him | him
    · have : ibs ≠ none := by
        rcases ibs with _ | v
        · cases him
        · exact fun hc => by cases hc
      simp [ht, this, Option.isSome_iff_ne_none]
    · simp [ht, him]

/-! Claim C9: trending dedup versus aggregator dedup. -/

/-- C9 counterexample: on a collected list whose two entries differ only in
the letter case of the link, the Trending dedup keeps both (its link key is
not lowercased) while the Aggregator dedup keeps only the first — so the two
merge-and-dedup steps are not equivalent. -/
theorem C9_counterexample :
    trendingDedup
      [⟨some "a", none, some "HTTP://X/p?u=1", none, none, false⟩,
       ⟨some "a", none, some "http://x/p", none, none, false⟩] ≠
    searchDedup
      [⟨some "a", none, some "HTTP://X/p?u=1", none, none, false⟩,
       ⟨some "a", none, some "http://x/p", none, none, false⟩] := by
  decide

/-- The two dedup keys agree on a product whose query-stripped link is
unchanged by lowercasing. -/
theorem trendingKey_eq_searchKey {p : Product}
    (hl : jsToLower (beforeFirst (jsStr p.link) '?') = beforeFirst (jsStr p.link) '?') :
    trendingKey p = searchKey p := by
  unfold trendingKey searchKey
  rw [hl]

theorem trendingDedupAux_eq_searchDedupAux (l : List Product) :
    ∀ seen, (∀ p ∈ l, validProduct p = true) →
      (∀ p ∈ l, trendingKey p = searchKey p) →
      trendingDedupAux seen l = searchDedupAux seen l := by
  induction l with
  | nil => intro seen _ _; rfl
  | cons it rest ih =>
    intro seen hv hk
    have hvit : validProduct it = true := hv it (List.mem_cons_self it rest)
    have hkit : trendingKey it = searchKey it := hk it (List.mem_cons_self it rest)
    have hvr : ∀ p ∈ rest, validProduct p = true :=
      fun p hp => hv p (List.mem_cons_of_mem it hp)
    have hkr : ∀ p ∈ rest, trendingKey p = searchKey p :=
      fun p hp => hk p (List.mem_cons_of_mem it hp)
    unfold trendingDedupAux searchDedupAux
    rw [hvit, hkit]
    simp only [if_true]
    by_cases hs : searchKey it ∈ seen
    · simp only [hs, if_true]
      exact ih seen hvr hkr
    · simp only [hs, if_false]
      rw [ih (searchKey it :: seen) hvr hkr]

/-- C9 amended: the Trending Discoverer deduplicates by the same
first-occurrence rule and the same (query-stripped link, lowercase trimmed
title) key as the Aggregator EXCEPT that its link component is not lowercased;
on any collected list whose products all have truthy title and link (as the
trending collector guarantees) and whose query-stripped links are unchanged by
lowercasing, the two steps retain the same products in the same order. -/
theorem C9_amended (l : List Product)
    (hv : ∀ p ∈ l, validProduct p = true)
    (hl : ∀ p ∈ l,
      jsToLower (beforeFirst (jsStr p.link) '?') = beforeFirst (jsStr p.link) '?') :
    trendingDedup l = searchDedup l := by
  unfold trendingDedup searchDedup
  exact trendingDedupAux_eq_searchDedupAux l []
    hv (fun p hp => trendingKey_eq_searchKey (hl p hp))

/-- C9 amended witness: a concrete two-element list with lowercase links on
which both dedups agree. -/
theorem C9_amended_witness :
    (∀ p ∈ [(⟨some "a", none, some "http://x/p?u=1", none, none, false⟩ : Product),
            ⟨some "b", none, some "http://y/q", none, none, false⟩],
        validProduct p = true) ∧
    (∀ p ∈ [(⟨some "a", none, some "http://x/p?u=1", none, none, false⟩ : Product),
            ⟨some "b", none, some "http://y/q", none, none, false⟩],
        jsToLower (beforeFirst (jsStr p.link) '?') = beforeFirst (jsStr p.link) '?') ∧
    trendingDedup
      [⟨some "a", none, some "http://x/p?u=1", none, none, false⟩,
       ⟨some "b", none, some "http://y/q", none, none, false⟩] =
    searchDedup
      [⟨some "a", none, some "http://x/p?u=1", none, none, false⟩,
       ⟨some "b", none, some "http://y/q", none, none, false⟩] :=
  ⟨by decide, by decide,
    C9_amended _ (by decide) (by decide)⟩

/-! Claim C2: the Aggregator merge-and-dedup. -/

theorem searchDedupAux_sublist (l : List Product) :
    ∀ seen, List.Sublist (searchDedupAux seen l) (l.filter validProduct) := by
  induction l with
  | nil => intro seen; simp [searchDedupAux]
  | cons it rest ih =>
    intro seen
    cases hvi : validProduct it with
    | false => simpa [searchDedupAux, hvi, List.filter_cons] using ih seen
    | true =>
      by_cases hs : searchKey it ∈ seen
      · simpa [searchDedupAux, hvi, hs, List.filter_cons] using (ih seen).cons it
      · simpa [searchDedupAux, hvi, hs, List.filter_cons] using
          (ih (searchKey it :: seen)).cons₂ it

theorem searchDedupAux_mem (l : List Product) :
    ∀ seen p, p ∈ searchDedupAux seen l →
      validProduct p = true ∧ searchKey p ∉ seen := by
  induction l with
  | nil => intro seen p hp; simp [searchDedupAux] at hp
  | cons it rest ih =>
    intro seen p hp
    cases hvi : validProduct it with
    | false =>
      rw [searchDedupAux, if_neg (by simp [hvi])] at hp
      exact ih seen p hp
    | true =>
      rw [searchDedupAux, if_pos (by simp [hvi])] at hp
      by_cases hs : searchKey it ∈ seen
      · rw [if_pos hs] at hp
        exact ih seen p hp
      · rw [if_neg hs] at hp
        rcases List.mem_cons.mp hp with rfl | hm
        · exact ⟨hvi, hs⟩
        · have h2 := ih (searchKey it :: seen) p hm
          exact ⟨h2.1, fun hc => h2.2 (List.mem_cons_of_mem _ hc)⟩

theorem searchDedupAux_pairwise (l : List Product) :
    ∀ seen, List.Pairwise (fun a b => searchKey a ≠ searchKey b)
      (searchDedupAux seen l) := by
  induction l with
  | nil => intro seen; simp [searchDedupAux]
  | cons it rest ih =>
    intro seen
    cases hvi : validProduct it with
    | false =>
      rw [searchDedupAux, if_neg (by simp [hvi])]
      exact ih seen
    | true =>
      rw [searchDedupAux, if_pos (by simp [hvi])]
      by_cases hs : searchKey it ∈ seen
      · rw [if_pos hs]; exact ih seen
      · rw [if_neg hs]
        refine List.Pairwise.cons ?_ (ih (searchKey it :: seen))
        intro b hb hc
        have h2 := searchDedupAux_mem rest (searchKey it :: seen) b hb
        exact h2.2 (by rw [← hc]; exact List.mem_cons_self _ _)

theorem searchDedupAux_first (l : List Product) :
    ∀ seen p, p ∈ searchDedupAux seen l →
      (l.filter (fun x => validProduct x && (searchKey x == searchKey p))).head? =
        some p := by
  induction l with
  | nil => intro seen p hp; simp [searchDedupAux] at hp
  | cons it rest ih =>
    intro seen p hp
    cases hvi : validProduct it with
    | false =>
      rw [searchDedupAux, if_neg (by simp [hvi])] at hp
      rw [List.filter_cons, if_neg (by simp [hvi])]
      exact ih seen p hp
    | true =>
      rw [searchDedupAux, if_pos (by simp [hvi])] at hp
      by_cases hs : searchKey it ∈ seen
      · rw [if_pos hs] at hp
        have hkp := (searchDedupAux_mem rest seen p hp).2
        have hne : searchKey it ≠ searchKey p := fun hc => hkp (hc ▸ hs)
        rw [List.filter_cons, if_neg (by simp [hne])]
        exact ih seen p hp
      · rw [if_neg hs] at hp
        rcases List.mem_cons.mp hp with rfl | hm
        · rw [List.filter_cons, if_pos (by simp [hvi])]
          rfl
        · have h2 := searchDedupAux_mem rest (searchKey it :: seen) p hm
          have hne : searchKey it ≠ searchKey p := by
            intro hc
            exact h2.2 (by rw [← hc]; exact List.mem_cons_self _ _)
          rw [List.filter_cons, if_neg (by simp [hne])]
          exact ih (searchKey it :: seen) p hm

theorem searchDedupAux_complete (l : List Product) :
    ∀ seen q, q ∈ l → validProduct q = true → searchKey q ∉ seen →
      ∃ p ∈ searchDedupAux seen l, searchKey p = searchKey q := by
  induction l with
  | nil => intro seen q hq; cases hq
  | cons it rest ih =>
    intro seen q hq hvq hsq
    cases hvi : validProduct it with
    | false =>
      rw [searchDedupAux, if_neg (by simp [hvi])]
      rcases List.mem_cons.mp hq with rfl | hm
      · rw [hvq] at hvi; cases hvi
      · exact ih seen q hm hvq hsq
    | true =>
      rw [searchDedupAux, if_pos (by simp [hvi])]
      by_cases hs : searchKey it ∈ seen
      · rw [if_pos hs]
        rcases List.mem_cons.mp hq with rfl | hm
        · exact absurd hs hsq
        · exact ih seen q hm hvq hsq
      · rw [if_neg hs]
        by_cases hk : searchKey q = searchKey it
        · exact ⟨it, List.mem_cons_self _ _, hk.symm⟩
        · rcases List.mem_cons.mp hq with rfl | hm
          · exact absurd rfl hk
          · have hsq2 : searchKey q ∉ searchKey it :: seen := by
              intro hc
              rcases List.mem_cons.mp hc with hc2 | hc2
              · exact hk hc2
              · exact hsq hc2
            rcases ih (searchKey it :: seen) q hm hvq hsq2 with ⟨p, hpm, hpe⟩
            exact ⟨p, List.mem_cons_of_mem _ hpm, hpe⟩

/-- Equal key pairs give equal concatenated keys. -/
theorem searchKey_eq_of_pair_eq {a b : Product}
    (h : searchKeyPair a = searchKeyPair b) : searchKey a = searchKey b := by
  unfold searchKeyPair at h
  unfold searchKey
  rw [(Prod.mk.injEq _ _ _ _).mp h |>.1, (Prod.mk.injEq _ _ _ _).mp h |>.2]

/-- C2: the Aggregator merge (a) retains only products with truthy title and
link, as an order-preserving sublist of the valid ones, (b) retains no two
products sharing the (stripped-link, lowercase-title) pair, (c) every retained
product is the FIRST input product carrying its dedup key, and (d) every valid
input product is represented by a retained product with its key. -/
theorem C2_aggregator_dedup (l : List Product) :
    List.Sublist (searchDedup l) (l.filter validProduct) ∧
    (∀ p ∈ searchDedup l, validProduct p = true) ∧
    List.Pairwise (fun a b => searchKeyPair a ≠ searchKeyPair b) (searchDedup l) ∧
    (∀ p ∈ searchDedup l,
      (l.filter (fun x => validProduct x && (searchKey x == searchKey p))).head? =
        some p) ∧
    (∀ q ∈ l, validProduct q = true →
      ∃ p ∈ searchDedup l, searchKey p = searchKey q) := by
  refine ⟨searchDedupAux_sublist l [], ?_, ?_, ?_, ?_⟩
  · intro p hp
    exact (searchDedupAux_mem l [] p hp).1
  · exact (searchDedupAux_pairwise l []).imp
      (fun hk hc => hk (searchKey_eq_of_pair_eq hc))
  · intro p hp
    exact searchDedupAux_first l [] p hp
  · intro q hq hvq
    exact searchDedupAux_complete l [] q hq hvq (by simp)

/-- C2 witness: the dedup evaluated on a concrete three-product list — a
duplicate pair differing only in link query string and title case collapses to
its first occurrence, an invalid (link-less) product is dropped. -/
theorem C2_aggregator_dedup_witness :
    searchDedup
      [⟨some "Red Shirt", some "₹999", some "http://a/x?q=1", some "A", none, false⟩,
       ⟨some "no link", none, none, some "B", none, false⟩,
       ⟨some "red shirt ", none, some "http://a/x", some "C", none, false⟩] =
      [⟨some "Red Shirt", some "₹999", some "http://a/x?q=1", some "A", none, false⟩] ∧
    (∀ q ∈ [(⟨some "Red Shirt", some "₹999", some "http://a/x?q=1", some "A", none,
              false⟩ : Product),
            ⟨some "no link", none, none, some "B", none, false⟩,
            ⟨some "red shirt ", none, some "http://a/x", some "C", none, false⟩],
      validProduct q = true →
        ∃ p ∈ searchDedup
          [(⟨some "Red Shirt", some "₹999", some "http://a/x?q=1", some "A", none,
             false⟩ : Product),
           ⟨some "no link", none, none, some "B", none, false⟩,
           ⟨some "red shirt ", none, some "http://a/x", some "C", none, false⟩],
          searchKey p = searchKey q) :=
  ⟨by decide, (C2_aggregator_dedup _).2.2.2.2⟩

/-! Claim C5: price sort with nulls last. -/

theorem applySort_price_asc (l : List NormProduct) :
    applySort l (some "price") (some "asc") = List.insertionSort (sortRel 1) l := by
  rfl

theorem applySort_price_desc (l : List NormProduct) :
    applySort l (some "price") (some "desc") = List.insertionSort (sortRel (-1)) l := by
  rfl

theorem sortRel_asc_spec {a b : NormProduct} (h : sortRel 1 a b) :
    (a.priceNumber = none → b.priceNumber = none) ∧
    ∀ x y, a.priceNumber = some x → b.priceNumber = some y → x ≤ y := by
  unfold sortRel at h
  constructor
  · intro ha
    rcases hb : b.priceNumber with _ | y
    · rfl
    · rw [ha, hb] at h
      simp only [jsPriceCmp] at h
      norm_num at h
  · intro x y hx hy
    rw [hx, hy] at h
    simp only [jsPriceCmp] at h
    nlinarith

theorem sortRel_desc_spec {a b : NormProduct} (h : sortRel (-1) a b) :
    (a.priceNumber = none → b.priceNumber = none) ∧
    ∀ x y, a.priceNumber = some x → b.priceNumber = some y → y ≤ x := by
  unfold sortRel at h
  constructor
  · intro ha
    rcases hb : b.priceNumber with _ | y
    · rfl
    · rw [ha, hb] at h
      simp only [jsPriceCmp] at h
      norm_num at h
  · intro x y hx hy
    rw [hx, hy] at h
    simp only [jsPriceCmp] at h
    nlinarith

/-- C5: sorting by price ascending returns a permutation of the input in which
every null-priced product comes strictly after every non-null-priced one
(pairwise: a null before something forces that something to be null too) and
the non-null prices are non-decreasing; descending is the mirror order on the
non-null prices, with nulls still last. -/
theorem C5_sort_correctness (l : List NormProduct) :
    List.Perm (applySort l (some "price") (some "asc")) l ∧
    List.Pairwise
      (fun a b => (a.priceNumber = none → b.priceNumber = none) ∧
        ∀ x y, a.priceNumber = some x → b.priceNumber = some y → x ≤ y)
      (applySort l (some "price") (some "asc")) ∧
    List.Perm (applySort l (some "price") (some "desc")) l ∧
    List.Pairwise
      (fun a b => (a.priceNumber = none → b.priceNumber = none) ∧
        ∀ x y, a.priceNumber = some x → b.priceNumber = some y → y ≤ x)
      (applySort l (some "price") (some "desc")) := by
  refine ⟨?_, ?_, ?_, ?_⟩
  · rw [applySort_price_asc]
    exact List.perm_insertionSort (sortRel 1) l
  · rw [applySort_price_asc]
    exact (List.sorted_insertionSort (sortRel 1) l).imp (fun h => sortRel_asc_spec h)
  · rw [applySort_price_desc]
    exact List.perm_insertionSort (sortRel (-1)) l
  · rw [applySort_price_desc]
    exact (List.sorted_insertionSort (sortRel (-1)) l).imp (fun h => sortRel_desc_spec h)

/-! Claim C6: inclusive price bounds, unknown prices always pass. -/

theorem priceBoundsPass_iff (m M : ℚ) (pn : Option ℚ) :
    priceBoundsPass (some m) (some M) pn = true ↔
      (pn = none ∨ ∃ q, pn = some q ∧ m ≤ q ∧ q ≤ M) := by
  rcases pn with _ | q
  · simp [priceBoundsPass]
  · simp only [priceBoundsPass, Bool.and_eq_true, Bool.not_eq_true', decide_eq_false_iff_not,
      not_lt]
    constructor
    · rintro ⟨h1, h2⟩
      exact Or.inr ⟨q, rfl, h1, h2⟩
    · rintro (hc | ⟨q2, hq2, hm, hM⟩)
      · cases hc
      · rcases Option.some_inj.mp hq2 with rfl
        exact ⟨hm, hM⟩

/-- C6: with numeric bounds `m ≤ M` given, the filter stage retains exactly
the products that pass the color/size/brand facets and whose `priceNumber` is
null or lies inclusively between the bounds; in particular a product is never
rejected solely for an unknown price. -/
theorem C6_price_filter (products : List NormProduct) (m M : ℚ)
    (colors sizes brands : List String) (p : NormProduct) :
    p ∈ applyFilters products ⟨some m, some M, colors, sizes, brands⟩ ↔
      p ∈ products ∧ facetsPass p colors sizes brands = true ∧
        (p.priceNumber = none ∨ ∃ q, p.priceNumber = some q ∧ m ≤ q ∧ q ≤ M) := by
  unfold applyFilters
  rw [List.mem_filter]
  constructor
  · rintro ⟨hp, hb⟩
    rw [Bool.and_eq_true] at hb
    exact ⟨hp, hb.2, (priceBoundsPass_iff m M p.priceNumber).mp hb.1⟩
  · rintro ⟨hp, hf, hpr⟩
    refine ⟨hp, ?_⟩
    rw [Bool.and_eq_true]
    exact ⟨(priceBoundsPass_iff m M p.priceNumber).mpr hpr, hf⟩

/-- C6 witness: a concrete unknown-price product passes a concrete price
filter with no facet constraints. -/
theorem C6_price_filter_witness :
    (⟨⟨some "t", none, some "l", none, none, false⟩, none, "t", "", "l"⟩ : NormProduct) ∈
      applyFilters
        [⟨⟨some "t", none, some "l", none, none, false⟩, none, "t", "", "l"⟩]
        ⟨some 100, some 200, [], [], []⟩ :=
  (C6_price_filter _ 100 200 [] [] [] _).mpr
    ⟨by decide, by decide, Or.inl rfl⟩

/-! Claim C1: the derived search query is never empty. -/

theorem seasonalExpansion_ne_empty (t dflt : String) (h : dflt ≠ "") :
    seasonalExpansion t dflt ≠ "" := by
  unfold seasonalExpansion
  repeat' split
  all_goals first | exact h | decide

theorem textFallback_ne_empty (s : String) : textFallback s ≠ "" := by
  unfold textFallback
  repeat' split
  all_goals first
    | exact append_ne_empty_of_right _ _ (by decide)
    | exact seasonalExpansion_ne_empty _ _ (append_ne_empty_of_right _ _ (by decide))
    | exact seasonalExpansion_ne_empty _ _ (by decide)
    | decide

theorem imageCaptionFallback_ne_empty (s : String) : imageCaptionFallback s ≠ "" := by
  unfold imageCaptionFallback
  repeat' split
  all_goals first
    | exact append_ne_empty_of_right _ _ (by decide)
    | exact seasonalExpansion_ne_empty _ _ (append_ne_empty_of_right _ _ (by decide))
    | exact seasonalExpansion_ne_empty _ _ (by decide)
    | decide

theorem imageFallback_ne_empty (text imageUrl : String) (ibs : Option ℕ) :
    imageFallback text imageUrl ibs ≠ "" := by
  unfold imageFallback
  repeat' split
  all_goals first
    | exact imageCaptionFallback_ne_empty _
    | exact append_ne_empty_of_right _ _ (by decide)
    | decide

theorem validateGeminiTextOut_ne_empty {raw q : String}
    (h : validateGeminiTextOut raw = some q) : q ≠ "" := by
  unfold validateGeminiTextOut at h
  split_ifs at h with h1 h2
  rcases Option.some_inj.mp h with rfl
  exact h1

theorem validateGeminiImageOut_ne_empty {raw q : String}
    (h : validateGeminiImageOut raw = some q) : q ≠ "" := by
  unfold validateGeminiImageOut at h
  split_ifs at h with h1 h2
  rcases Option.some_inj.mp h with rfl
  exact h1

/-- C1: whatever the text input (empty after trimming, pure punctuation, raw
mode), the upload, and the outcome of the external AI call (network failure,
timeout, refusal or invalid output — all modelled by the raw completion and
its validation), whenever the search route derives a query at all (i.e. the
request was not rejected with a 400), that query is a non-empty string. -/
theorem C1_search_query_nonempty (useRaw : Bool) (text imageUrl : String)
    (ibs : Option ℕ) (aiTextRaw aiImageRaw : Option String) (q : String)
    (h : deriveSearchQuery useRaw text imageUrl ibs aiTextRaw aiImageRaw = some q) :
    q ≠ "" := by
  unfold deriveSearchQuery at h
  split at h
  · cases h
  · rcases Option.some_inj.mp h with rfl
    clear h
    split
    · next hc =>
      rw [Bool.and_eq_true, decide_eq_true_eq] at hc
      exact hc.2
    · split
      · split
        · next q2 hb =>
          rcases Option.bind_eq_some.mp hb with ⟨raw, -, hv⟩
          exact validateGeminiTextOut_ne_empty hv
        · exact textFallback_ne_empty _
      · split
        · split
          · next q2 hb =>
            rcases Option.bind_eq_some.mp hb with ⟨raw, -, hv⟩
            exact validateGeminiImageOut_ne_empty hv
          · exact imageFallback_ne_empty _ _ _
        · decide

/-- C1 witness: a pure-punctuation text input whose AI call returns a refusal
is rejected by validation and falls back to a non-empty query. -/
theorem C1_search_query_nonempty_witness :
    deriveSearchQuery false "!!!" "" none (some "sorry, i cannot help with that") none =
      some "!!! fashion clothing style" ∧
    ("!!! fashion clothing style" : String) ≠ "" :=
  ⟨by decide,
    C1_search_query_nonempty false "!!!" "" none
      (some "sorry, i cannot help with that") none
      "!!! fashion clothing style" (by decide)⟩

/-! Claim C4: the Price Parser and its (unreachable) median branch. -/

theorem digit_not_whitespace {c : Char} (h : c.isDigit = true) :
    c.isWhitespace = false := by
  by_contra hw
  rw [Bool.not_eq_false] at hw
  unfold Char.isWhitespace at hw
  rcases Bool.or_eq_true_iff.mp hw with hc | hc
  · rcases Bool.or_eq_true_iff.mp hc with hc2 | hc2
    · rcases Bool.or_eq_true_iff.mp hc2 with hc3 | hc3 <;>
        rw [decide_eq_true_eq] at hc3 <;> subst hc3 <;> cases h
    · rw [decide_eq_true_eq] at hc2; subst hc2; cases h
  · rw [decide_eq_true_eq] at hc; subst hc; cases h

/-- The grouped decimal succeeds whenever it is anchored at a digit. -/
theorem groupedDecimalAt_isSome {c : Char} {rest : List Char}
    (h : c.isDigit = true) : (groupedDecimalAt (c :: rest)).isSome = true := by
  unfold groupedDecimalAt
  rw [List.takeWhile_cons_of_pos h]
  simp only [List.isEmpty_cons, if_false, Bool.false_eq_true]
  split
  · split <;> simp
  · simp

theorem pattern2Capture_eq_none_iff (cs : List Char) :
    pattern2Capture cs = none ↔ ∀ c ∈ cs, c.isDigit = false := by
  induction cs with
  | nil => simp [pattern2Capture]
  | cons c rest ih =>
    cases hd : c.isDigit with
    | true =>
      rw [pattern2Capture, if_pos hd]
      constructor
      · intro hc
        have := @groupedDecimalAt_isSome c rest hd
        rw [hc] at this
        cases this
      · intro hall
        rw [hall c (List.mem_cons_self _ _)] at hd
        cases hd
    | false =>
      rw [pattern2Capture, if_neg (by simp [hd])]
      rw [ih]
      constructor
      · intro hall x hx
        rcases List.mem_cons.mp hx with rfl | hm
        · exact hd
        · exact hall x hm
      · intro hall x hx
        exact hall x (List.mem_cons_of_mem _ hx)

theorem fallbackCapture_eq_none_of_no_digit {cs : List Char}
    (h : ∀ c ∈ cs, c.isDigit = false) : fallbackCapture cs = none := by
  induction cs with
  | nil => rfl
  | cons c rest ih =>
    rw [fallbackCapture, if_neg (by simp [h c (List.mem_cons_self _ _)])]
    exact ih (fun x hx => h x (List.mem_cons_of_mem _ hx))

theorem digitRunsAux_eq_nil_of_no_digit {cs : List Char}
    (h : ∀ c ∈ cs, c.isDigit = false) : digitRunsAux cs [] = [] := by
  induction cs with
  | nil => rfl
  | cons c rest ih =>
    rw [digitRunsAux, if_neg (by simp [h c (List.mem_cons_self _ _)])]
    simp only [List.isEmpty_nil, if_true]
    exact ih (fun x hx => h x (List.mem_cons_of_mem _ hx))

theorem pattern5Value_eq_none_of_no_digit {cs : List Char}
    (h : ∀ c ∈ cs, c.isDigit = false) : pattern5Value cs = none := by
  unfold pattern5Value digitRuns
  rw [digitRunsAux_eq_nil_of_no_digit h]
  rfl

theorem groupedAfterCurrency_all_commas {cs cap : List Char}
    (hnd : ∀ c ∈ cs, c.isDigit = false)
    (h : groupedAfterCurrency cs = some cap) : ∀ c ∈ cap, c = ',' := by
  have hrun : ∀ c ∈ (cs.dropWhile Char.isWhitespace).takeWhile isDigitOrComma,
      c = ',' := by
    intro c hc
    have hdc := List.mem_takeWhile_imp hc
    have hmem : c ∈ cs := mem_of_mem_dropWhile (mem_of_mem_takeWhile hc)
    unfold isDigitOrComma at hdc
    rcases Bool.or_eq_true_iff.mp hdc with h1 | h1
    · rw [hnd c hmem] at h1; cases h1
    · exact decide_eq_true_eq.mp h1
  unfold groupedAfterCurrency at h
  split_ifs at h with he
  revert h
  split
  · next d1 d2 t heq =>
    split_ifs with hdd
    · intro h
      exfalso
      have hd1 : d1 ∈ cs := by
        have : d1 ∈ (cs.dropWhile Char.isWhitespace).drop
            ((cs.dropWhile Char.isWhitespace).takeWhile isDigitOrComma).length := by
          rw [heq]; exact List.mem_cons_of_mem _ (List.mem_cons_self _ _)
        exact mem_of_mem_dropWhile (mem_of_mem_drop this)
      have := (Bool.and_eq_true _ _).mp hdd
      rw [hnd d1 hd1] at this
      exact Bool.false_ne_true this.1
    · intro h
      rcases Option.some_inj.mp h with rfl
      exact hrun
  · intro h
    rcases Option.some_inj.mp h with rfl
    exact hrun

theorem pattern1_all_commas {cs cap : List Char}
    (hnd : ∀ c ∈ cs, c.isDigit = false)
    (h : pattern1Capture cs = some cap) : ∀ c ∈ cap, c = ',' := by
  induction cs with
  | nil => cases h
  | cons c rest ih =>
    rw [pattern1Capture] at h
    split_ifs at h with hcur
    · revert h
      split
      · next cap2 hg =>
        intro h
        rcases Option.some_inj.mp h with rfl
        exact groupedAfterCurrency_all_commas
          (fun x hx => hnd x (List.mem_cons_of_mem _ hx)) hg
      · intro h
        exact ih (fun x hx => hnd x (List.mem_cons_of_mem _ hx)) h
    · exact ih (fun x hx => hnd x (List.mem_cons_of_mem _ hx)) h

theorem stripCommas_eq_empty {cap : List Char} (h : ∀ c ∈ cap, c = ',') :
    stripCommas cap = "" := by
  unfold stripCommas
  have : cap.filter (fun c => c ≠ ',') = [] := by
    rw [List.filter_eq_nil_iff]
    intro a ha
    simp [h a ha]
  rw [this]

theorem pattern1_value_none_of_no_digit {cs : List Char}
    (hnd : ∀ c ∈ cs, c.isDigit = false) :
    (pattern1Capture cs).bind (fun cap => parseFloatJS (stripCommas cap)) = none := by
  cases hp : pattern1Capture cs with
  | none => rfl
  | some cap =>
    rw [Option.some_bind, stripCommas_eq_empty (pattern1_all_commas hnd hp)]
    rfl

theorem commaChunks_chars (l : List Char) :
    ∀ c ∈ (commaChunks l).1, isDigitOrComma c = true := by
  induction l using commaChunks.induct with
  | case1 a b c rest h ih =>
    intro x hx
    rw [commaChunks, if_pos h] at hx
    obtain ⟨h1, h2⟩ := (Bool.and_eq_true _ _).mp h
    obtain ⟨ha, hb⟩ := (Bool.and_eq_true _ _).mp h1
    rcases List.mem_cons.mp hx with rfl | hx
    · decide
    · rcases List.mem_cons.mp hx with rfl | hx
      · simp [isDigitOrComma, ha]
      · rcases List.mem_cons.mp hx with rfl | hx
        · simp [isDigitOrComma, hb]
        · rcases List.mem_cons.mp hx with rfl | hx
          · simp [isDigitOrComma, h2]
          · exact ih x hx
  | case2 a b c rest h =>
    intro x hx
    rw [commaChunks, if_neg h] at hx
    cases hx
  | case3 l h =>
    intro x hx
    rw [commaChunks.eq_def] at hx
    split at hx
    · next a b c rest => exact absurd rfl (h a b c rest)
    · cases hx

theorem optS_subset {l : List Char} : ∀ c ∈ optS l, c ∈ l := by
  intro c hc
  unfold optS at hc
  revert hc
  split
  · split_ifs
    · exact fun hc => List.mem_cons_of_mem _ hc
    · exact fun hc => hc
  · exact fun hc => absurd hc (List.not_mem_nil _)

theorem optDot_subset {l : List Char} : ∀ c ∈ optDot l, c ∈ l := by
  intro c hc
  unfold optDot at hc
  revert hc
  split
  · exact fun hc => List.mem_cons_of_mem _ hc
  · exact fun hc => hc

theorem optColon_subset {l : List Char} : ∀ c ∈ optColon l, c ∈ l := by
  intro c hc
  unfold optColon at hc
  revert hc
  split
  · exact fun hc => List.mem_cons_of_mem _ (mem_of_mem_dropWhile hc)
  · exact fun hc => hc

theorem ciWord_subset {w cs r : List Char} (h : ciWord w cs = some r) :
    ∀ c ∈ r, c ∈ cs := by
  induction w generalizing cs with
  | nil =>
    rcases Option.some_inj.mp h with rfl
    exact fun c hc => hc
  | cons wc ws ih =>
    cases cs with
    | nil => cases h
    | cons c2 cs2 =>
      rw [ciWord] at h
      split_ifs at h with hci
      exact fun c hc => List.mem_cons_of_mem _ (ih h c hc)

theorem rsLead_subset {cs r : List Char} (h : rsLead cs = some r) :
    ∀ c ∈ r, c ∈ cs := by
  cases cs with
  | nil => cases h
  | cons c2 rest =>
    rw [rsLead] at h
    split_ifs at h with hci
    rcases Option.some_inj.mp h with rfl
    intro c hc
    exact List.mem_cons_of_mem _ (optS_subset _ (optDot_subset _ (mem_of_mem_dropWhile hc)))

theorem rupeeLead_subset {cs r : List Char} (h : rupeeLead cs = some r) :
    ∀ c ∈ r, c ∈ cs := by
  unfold rupeeLead at h
  revert h
  split
  · intro h
    rcases Option.some_inj.mp h with rfl
    exact fun c hc => List.mem_cons_of_mem _ (mem_of_mem_dropWhile hc)
  · intro h
    cases h

theorem wordLead_subset {w cs r : List Char} (h : wordLead w cs = some r) :
    ∀ c ∈ r, c ∈ cs := by
  unfold wordLead at h
  revert h
  split
  · next r1 hw =>
    intro h
    rcases Option.some_inj.mp h with rfl
    exact fun c hc =>
      ciWord_subset hw c (mem_of_mem_dropWhile (optColon_subset _ hc))
  · intro h
    cases h

theorem groupedDecimalAt_has_digit {r cap : List Char}
    (h : groupedDecimalAt r = some cap) : ∃ c ∈ r, c.isDigit = true := by
  unfold groupedDecimalAt at h
  split_ifs at h with he
  cases hd : r.takeWhile Char.isDigit with
  | nil => rw [hd] at he; exact absurd rfl he
  | cons c t =>
    refine ⟨c, mem_of_mem_takeWhile (hd ▸ List.mem_cons_self c t), ?_⟩
    exact List.mem_takeWhile_imp (hd ▸ List.mem_cons_self c t)

theorem pattern3At_none_of_no_digit {cs : List Char}
    (hnd : ∀ c ∈ cs, c.isDigit = false) : pattern3At cs = none := by
  have hbind : ∀ (lead : Option (List Char)),
      (∀ r, lead = some r → ∀ c ∈ r, c ∈ cs) → lead.bind groupedDecimalAt = none := by
    intro lead hsub
    cases hl : lead with
    | none => rfl
    | some r =>
      rw [Option.some_bind]
      cases hg : groupedDecimalAt r with
      | none => rfl
      | some cap =>
        rcases groupedDecimalAt_has_digit hg with ⟨c, hcr, hcd⟩
        rw [hnd c (hsub r hl c hcr)] at hcd
        cases hcd
  unfold pattern3At
  rw [hbind _ (fun r hr => rsLead_subset hr),
    hbind _ (fun r hr => rupeeLead_subset hr),
    hbind _ (fun r hr => wordLead_subset hr),
    hbind _ (fun r hr => wordLead_subset hr)]
  rfl

theorem pattern3Capture_none_of_no_digit {cs : List Char}
    (hnd : ∀ c ∈ cs, c.isDigit = false) : pattern3Capture cs = none := by
  induction cs with
  | nil => rfl
  | cons c rest ih =>
    rw [pattern3Capture, pattern3At_none_of_no_digit hnd]
    exact ih (fun x hx => hnd x (List.mem_cons_of_mem _ hx))

theorem takeWhile_all {p : Char → Bool} {l : List Char}
    (h : ∀ c ∈ l, p c = true) : l.takeWhile p = l := by
  induction l with
  | nil => rfl
  | cons a t ih =>
    rw [List.takeWhile_cons_of_pos (h a (List.mem_cons_self _ _)),
      ih (fun c hc => h c (List.mem_cons_of_mem _ hc))]

theorem takeWhile_append_all {p : Char → Bool} {D E : List Char}
    (h : ∀ c ∈ D, p c = true) : (D ++ E).takeWhile p = D ++ E.takeWhile p := by
  induction D with
  | nil => rfl
  | cons a t ih =>
    rw [List.cons_append, List.takeWhile_cons_of_pos (h a (List.mem_cons_self _ _)),
      ih (fun c hc => h c (List.mem_cons_of_mem _ hc)), List.cons_append]

/-- `parseFloat` succeeds on a non-empty run of digits, optionally followed by
a dot and two digits. -/
theorem parseFloatChars_digits_some {D E : List Char}
    (hD : ∀ c ∈ D, c.isDigit = true) (hne : D ≠ [])
    (hE : E = [] ∨ ∃ a b, E = ['.', a, b] ∧ a.isDigit = true ∧ b.isDigit = true) :
    ∃ v, parseFloatChars (D ++ E) = some v := by
  cases D with
  | nil => exact absurd rfl hne
  | cons d0 Dt =>
    rcases hE with rfl | ⟨a, b, rfl, ha, hb⟩
    · rw [List.append_nil]
      unfold parseFloatChars
      rw [takeWhile_all hD, List.drop_length]
      exact ⟨_, rfl⟩
    · unfold parseFloatChars
      rw [takeWhile_append_all hD, List.takeWhile_cons_of_neg (by decide),
        List.append_nil, List.drop_left]
      exact ⟨_, rfl⟩

theorem filter_comma_digits {l : List Char}
    (h : ∀ c ∈ l, c.isDigit = true) : l.filter (fun c => c ≠ ',') = l := by
  rw [List.filter_eq_self]
  intro a ha
  rw [decide_eq_true_eq]
  intro hc
  subst hc
  simpa using h ',' ha

theorem parseFloatJS_stripCommas (cap : List Char) :
    parseFloatJS (stripCommas cap) = parseFloatChars (cap.filter (fun c => c ≠ ',')) :=
  rfl

theorem groupedDecimalAt_parse_some {r cap : List Char}
    (h : groupedDecimalAt r = some cap) :
    ∃ v, parseFloatJS (stripCommas cap) = some v := by
  have hF3digit : ∀ c ∈ (r.takeWhile Char.isDigit).take 3, c.isDigit = true :=
    fun c hc => List.mem_takeWhile_imp (List.take_subset 3 _ hc)
  have hM1digit : ∀ c ∈ (commaChunks
      (r.drop ((r.takeWhile Char.isDigit).take 3).length)).1.filter (fun c => c ≠ ','),
      c.isDigit = true := by
    intro c hc
    rw [List.mem_filter] at hc
    have h2 := commaChunks_chars _ c hc.1
    unfold isDigitOrComma at h2
    rcases Bool.or_eq_true_iff.mp h2 with h3 | h3
    · exact h3
    · rw [decide_eq_true_eq] at h3
      rw [decide_eq_true_eq] at hc
      exact absurd h3 hc.2
  unfold groupedDecimalAt at h
  split_ifs at h with he
  have hF3ne : (r.takeWhile Char.isDigit).take 3 ≠ [] := by
    intro hc
    rcases List.take_eq_nil_iff.mp hc with h3 | h3
    · cases h3
    · rw [h3] at he
      exact he rfl
  have hDne : (r.takeWhile Char.isDigit).take 3 ++
      (commaChunks (r.drop ((r.takeWhile Char.isDigit).take 3).length)).1.filter
        (fun c => c ≠ ',') ≠ [] := by
    intro hc
    rcases List.append_eq_nil.mp hc with ⟨h3, -⟩
    exact hF3ne h3
  have hDdig : ∀ c ∈ (r.takeWhile Char.isDigit).take 3 ++
      (commaChunks (r.drop ((r.takeWhile Char.isDigit).take 3).length)).1.filter
        (fun c => c ≠ ','), c.isDigit = true := by
    intro c hc
    rcases List.mem_append.mp hc with h3 | h3
    · exact hF3digit c h3
    · exact hM1digit c h3
  revert h
  split
  · next a b t heq =>
    split_ifs with hab
    · intro h
      rcases Option.some_inj.mp h with rfl
      obtain ⟨ha2, hb2⟩ := (Bool.and_eq_true _ _).mp hab
      have hfd : ['.', a, b].filter (fun c => c ≠ ',') = ['.', a, b] := by
        rw [List.filter_eq_self]
        intro x hx
        rw [decide_eq_true_eq]
        rcases List.mem_cons.mp hx with rfl | hx
        · decide
        · rcases List.mem_cons.mp hx with rfl | hx
          · intro hc; subst hc; simpa using ha2
          · rcases List.mem_cons.mp hx with rfl | hx
            · intro hc; subst hc; simpa using hb2
            · cases hx
      rw [parseFloatJS_stripCommas, List.filter_append, List.filter_append,
        filter_comma_digits hF3digit, hfd]
      exact parseFloatChars_digits_some hDdig hDne (Or.inr ⟨a, b, rfl, ha2, hb2⟩)
    · intro h
      rcases Option.some_inj.mp h with rfl
      rw [parseFloatJS_stripCommas, List.filter_append, filter_comma_digits hF3digit]
      have := parseFloatChars_digits_some hDdig hDne (Or.inl rfl)
      rwa [List.append_nil] at this
  · intro h
    rcases Option.some_inj.mp h with rfl
    rw [parseFloatJS_stripCommas, List.filter_append, filter_comma_digits hF3digit]
    have := parseFloatChars_digits_some hDdig hDne (Or.inl rfl)
    rwa [List.append_nil] at this

theorem pattern2_value_some {cs cap : List Char}
    (h : pattern2Capture cs = some cap) :
    ∃ v, parseFloatJS (stripCommas cap) = some v := by
  induction cs with
  | nil => cases h
  | cons c rest ih =>
    rw [pattern2Capture] at h
    split_ifs at h with hd
    · exact groupedDecimalAt_parse_some h
    · exact ih h

theorem pattern1Capture_none_of_no_currency {cs : List Char}
    (h : ∀ c ∈ cs, isCurrencyChar c = false) : pattern1Capture cs = none := by
  induction cs with
  | nil => rfl
  | cons c rest ih =>
    rw [pattern1Capture, if_neg (by simp [h c (List.mem_cons_self _ _)])]
    exact ih (fun x hx => h x (List.mem_cons_of_mem _ hx))

/-- The trimmed character list keeps exactly the digit content for the
purposes of the parser cascade. -/
theorem no_digit_trim {s : String} (h : ∀ c ∈ s.data, c.isDigit = false) :
    ∀ c ∈ trimChars s.data, c.isDigit = false :=
  fun c hc => h c (mem_of_mem_trimChars hc)

/-- C4 amended, part of the analysis of `parsePriceToNumber` on strings: the
parser returns null exactly when the input contains no digit at all, and on
any input without a currency symbol its result is exactly the value of the
first bare grouped-decimal match (pattern 2) — so for noisy multi-number
strings the FIRST embedded number wins and the median-of-candidates branch
(pattern 5) is unreachable. -/
theorem C4_parser_amended (s : String) :
    (parsePriceString s = none ↔ ∀ c ∈ s.data, c.isDigit = false) ∧
    ((∀ c ∈ s.data, isCurrencyChar c = false) →
      parsePriceString s =
        (pattern2Capture (trimChars s.data)).bind
          (fun cap => parseFloatJS (stripCommas cap))) := by
  constructor
  · constructor
    · intro hn
      by_contra hc
      push_neg at hc
      rcases hc with ⟨c, hcm, hcd0⟩
      have hcd : c.isDigit = true := by simpa using hcd0
      have hmem : c ∈ trimChars s.data :=
        mem_trimChars_of_mem hcm (digit_not_whitespace hcd)
      unfold parsePriceString at hn
      revert hn
      split
      · intro hn; cases hn
      · next h1 =>
        split
        · intro hn; cases hn
        · next h2 =>
          intro hn
          cases hp2 : pattern2Capture (trimChars s.data) with
          | none =>
            rw [pattern2Capture_eq_none_iff] at hp2
            rw [hp2 c hmem] at hcd
            cases hcd
          | some cap =>
            rcases pattern2_value_some hp2 with ⟨v, hv⟩
            rw [hp2, Option.some_bind, hv] at h2
            cases h2
    · intro hnd
      have hnd2 : ∀ c ∈ trimChars s.data, c.isDigit = false := no_digit_trim hnd
      unfold parsePriceString
      rw [pattern1_value_none_of_no_digit hnd2,
        (pattern2Capture_eq_none_iff _).mpr hnd2,
        pattern3Capture_none_of_no_digit hnd2,
        pattern5Value_eq_none_of_no_digit hnd2,
        fallbackCapture_eq_none_of_no_digit hnd2]
      rfl
  · intro hnc
    have hnc2 : ∀ c ∈ trimChars s.data, isCurrencyChar c = false :=
      fun c hc => hnc c (mem_of_mem_trimChars hc)
    unfold parsePriceString
    rw [pattern1Capture_none_of_no_currency hnc2]
    cases hp2 : pattern2Capture (trimChars s.data) with
    | some cap =>
      rcases pattern2_value_some hp2 with ⟨v, hv⟩
      rw [Option.some_bind, hv]
      rfl
    | none =>
      have hnd2 := (pattern2Capture_eq_none_iff _).mp hp2
      rw [pattern3Capture_none_of_no_digit hnd2,
        pattern5Value_eq_none_of_no_digit hnd2,
        fallbackCapture_eq_none_of_no_digit hnd2]
      rfl

/-- C4 counterexample: on a noisy string with three embedded 3-plus-digit
numbers and no currency symbol, the median of the in-range candidates is 999
(what pattern 5 would return), but the parser returns 123 — the first grouped
decimal, cut to the first three digits of 12345 — because pattern 2 matches
first.  The median branch is dead code. -/
theorem C4_counterexample :
    parsePriceOfStr (some "SKU 12345 item 999 ship 200") = some 123 ∧
    pattern5Value (trimChars "SKU 12345 item 999 ship 200".data) = some 999 ∧
    (123 : ℚ) ≠ 999 := by
  refine ⟨by decide, by decide, by norm_num⟩

/-- C4 witness: the amended theorem applied at a digit-free input and at the
counterexample input. -/
theorem C4_parser_amended_witness :
    (parsePriceString "no digits at all!" = none) ∧
    ((∀ c ∈ ("SKU 12345 item 999 ship 200" : String).data, isCurrencyChar c = false) ∧
      parsePriceString "SKU 12345 item 999 ship 200" =
        (pattern2Capture (trimChars ("SKU 12345 item 999 ship 200" : String).data)).bind
          (fun cap => parseFloatJS (stripCommas cap))) :=
  ⟨(C4_parser_amended "no digits at all!").1.mpr (by decide),
    by decide, (C4_parser_amended "SKU 12345 item 999 ship 200").2 (by decide)⟩

/-! Claims C8 and C10: the Price Enhancer. -/

theorem digitChar_isDigit {m : ℕ} (h : m < 10) : (digitChar m).isDigit = true := by
  interval_cases m <;> decide

theorem natDigitsAux_digits (fuel : ℕ) :
    ∀ n, ∀ c ∈ natDigitsAux fuel n, c.isDigit = true := by
  induction fuel with
  | zero => intro n c hc; cases hc
  | succ f ih =>
    intro n c hc
    rw [natDigitsAux] at hc
    split_ifs at hc with h10
    · rcases List.mem_cons.mp hc with rfl | hc2
      · exact digitChar_isDigit h10
      · cases hc2
    · rcases List.mem_append.mp hc with hc2 | hc2
      · exact ih _ c hc2
      · rcases List.mem_cons.mp hc2 with rfl | hc3
        · exact digitChar_isDigit (Nat.mod_lt _ (by omega))
        · cases hc3

theorem natDigitsAux_ne_nil {fuel n : ℕ} (h : 0 < fuel) :
    natDigitsAux fuel n ≠ [] := by
  cases fuel with
  | zero => omega
  | succ f =>
    rw [natDigitsAux]
    split_ifs
    · exact List.cons_ne_nil _ _
    · intro hc
      rcases List.append_eq_nil.mp hc with ⟨-, h2⟩
      cases h2

/-- A rupee sign followed by a rendered natural number is in the canonical
display format. -/
theorem canonical_rupee_nat (n : ℕ) : isCanonicalPrice ("₹" ++ natToStr n) = true := by
  show (!(natDigits n).isEmpty && (natDigits n).all Char.isDigit) = true
  rw [Bool.and_eq_true]
  constructor
  · cases hd : natDigits n with
    | nil => exact absurd hd (natDigitsAux_ne_nil (by omega))
    | cons a t => simp
  · rw [List.all_eq_true]
    intro c hc
    exact natDigitsAux_digits _ _ c hc

/-- The per-index relation between an enhancer-output product and the input
product at the same position: all fields but the price are unchanged, and the
price is either unchanged or canonical. -/
def priceInv (q p : Product) : Prop :=
  q.title = p.title ∧ q.link = p.link ∧ q.source = p.source ∧
  q.thumbnail = p.thumbnail ∧
  (q.price = p.price ∨ ∃ s, q.price = some s ∧ isCanonicalPrice s = true)

theorem priceInv_refl (p : Product) : priceInv p p :=
  ⟨rfl, rfl, rfl, rfl, Or.inl rfl⟩

theorem priceInv_trans {r q p : Product} (h1 : priceInv r q) (h2 : priceInv q p) :
    priceInv r p := by
  refine ⟨h1.1.trans h2.1, h1.2.1.trans h2.2.1, h1.2.2.1.trans h2.2.2.1,
    h1.2.2.2.1.trans h2.2.2.2.1, ?_⟩
  rcases h1.2.2.2.2 with he | hc
  · rcases h2.2.2.2.2 with he2 | hc2
    · exact Or.inl (he.trans he2)
    · exact Or.inr (he ▸ hc2)
  · exact Or.inr hc

theorem fetchRealTimePrice_inv (scrape : Product → Option ℕ) (t : Product) :
    priceInv (fetchRealTimePrice scrape t) t := by
  unfold fetchRealTimePrice
  split_ifs with h1
  · exact priceInv_refl t
  · split
    · next n heq =>
      split_ifs with hn
      · exact ⟨rfl, rfl, rfl, rfl,
          Or.inr ⟨"₹" ++ natToStr n, rfl, canonical_rupee_nat n⟩⟩
      · exact priceInv_refl t
    · exact priceInv_refl t

theorem orElse_eq_some_elim {α : Type} {a b : Option α} {v : α}
    (h : (a <|> b) = some v) : a = some v ∨ b = some v := by
  cases a with
  | none => exact Or.inr (by simpa using h)
  | some x => exact Or.inl (by simpa using h)

theorem groupedDecimalAt_chars {r cap : List Char}
    (h : groupedDecimalAt r = some cap) :
    ∀ c ∈ cap, c.isDigit = true ∨ c = ',' ∨ c = '.' := by
  have hF3 : ∀ c ∈ (r.takeWhile Char.isDigit).take 3,
      c.isDigit = true ∨ c = ',' ∨ c = '.' :=
    fun c hc => Or.inl (List.mem_takeWhile_imp (List.take_subset 3 _ hc))
  have hM1 : ∀ c ∈ (commaChunks
      (r.drop ((r.takeWhile Char.isDigit).take 3).length)).1,
      c.isDigit = true ∨ c = ',' ∨ c = '.' := by
    intro c hc
    have h2 := commaChunks_chars _ c hc
    unfold isDigitOrComma at h2
    rcases Bool.or_eq_true_iff.mp h2 with h3 | h3
    · exact Or.inl h3
    · exact Or.inr (Or.inl (decide_eq_true_eq.mp h3))
  unfold groupedDecimalAt at h
  split_ifs at h with he
  revert h
  split
  · next a b t heq =>
    split_ifs with hab
    · intro h
      rcases Option.some_inj.mp h with rfl
      intro c hc
      rcases List.mem_append.mp hc with hc1 | hc1
      · rcases List.mem_append.mp hc1 with hc2 | hc2
        · exact hF3 c hc2
        · exact hM1 c hc2
      · obtain ⟨ha2, hb2⟩ := (Bool.and_eq_true _ _).mp hab
        rcases List.mem_cons.mp hc1 with rfl | hc2
        · exact Or.inr (Or.inr rfl)
        · rcases List.mem_cons.mp hc2 with rfl | hc3
          · exact Or.inl ha2
          · rcases List.mem_cons.mp hc3 with rfl | hc4
            · exact Or.inl hb2
            · cases hc4
    · intro h
      rcases Option.some_inj.mp h with rfl
      intro c hc
      rcases List.mem_append.mp hc with hc1 | hc1
      · exact hF3 c hc1
      · exact hM1 c hc1
  · intro h
    rcases Option.some_inj.mp h with rfl
    intro c hc
    rcases List.mem_append.mp hc with hc1 | hc1
    · exact hF3 c hc1
    · exact hM1 c hc1

theorem pattern2Capture_from_grouped {cs cap : List Char}
    (h : pattern2Capture cs = some cap) :
    ∃ r, groupedDecimalAt r = some cap := by
  induction cs with
  | nil => cases h
  | cons c rest ih =>
    rw [pattern2Capture] at h
    split_ifs at h with hd
    · exact ⟨c :: rest, h⟩
    · exact ih h

theorem titleAltCapture_from_grouped {l cap : List Char}
    (h : titleAltCapture l = some cap) :
    ∃ r, groupedDecimalAt r = some cap := by
  induction l with
  | nil => cases h
  | cons c rest ih =>
    rw [titleAltCapture] at h
    revert h
    split
    · next cap2 halt =>
      intro h
      rcases Option.some_inj.mp h with rfl
      rcases orElse_eq_some_elim halt with h1 | h1
      · rcases Option.bind_eq_some.mp h1 with ⟨r, -, hr⟩
        exact ⟨r, hr⟩
      · rcases orElse_eq_some_elim h1 with h2 | h2
        · rcases Option.bind_eq_some.mp h2 with ⟨r, -, hr⟩
          exact ⟨r, hr⟩
        · rcases Option.bind_eq_some.mp h2 with ⟨r, -, hr⟩
          exact ⟨r, hr⟩
    · intro h
      exact ih h

theorem titleCaptureOf_from_grouped {p : Product} {cap : List Char}
    (h : titleCaptureOf p = some cap) :
    ∃ r, groupedDecimalAt r = some cap := by
  unfold titleCaptureOf at h
  revert h
  split
  · next t =>
    split
    · next c2 hc2 =>
      intro h
      rcases Option.some_inj.mp h with rfl
      exact pattern2Capture_from_grouped hc2
    · intro h
      exact titleAltCapture_from_grouped h
  · intro h
    cases h

theorem digit_not_currency {c : Char} (h : c.isDigit = true) :
    isCurrencyChar c = false := by
  by_contra hc
  rw [Bool.not_eq_false] at hc
  unfold isCurrencyChar at hc
  rcases Bool.or_eq_true_iff.mp hc with h1 | h1
  · rcases Bool.or_eq_true_iff.mp h1 with h2 | h2
    · rcases Bool.or_eq_true_iff.mp h2 with h3 | h3 <;>
        rw [decide_eq_true_eq] at h3 <;> subst h3 <;> cases h
    · rw [decide_eq_true_eq] at h2; subst h2; cases h
  · rw [decide_eq_true_eq] at h1; subst h1; cases h

theorem dropWhile_eq_self_of_all {p : Char → Bool} {l : List Char}
    (h : ∀ c ∈ l, p c = false) : l.dropWhile p = l := by
  cases l with
  | nil => rfl
  | cons a t =>
    exact List.dropWhile_cons_of_neg (by simp [h a (List.mem_cons_self _ _)])

theorem trimChars_eq_self_of_no_ws {l : List Char}
    (h : ∀ c ∈ l, c.isWhitespace = false) : trimChars l = l := by
  unfold trimChars
  rw [dropWhile_eq_self_of_all h,
    dropWhile_eq_self_of_all (fun c hc => h c (List.mem_reverse.mp hc)),
    List.reverse_reverse]

theorem rupee_ne_empty (x : String) : ("₹" ++ x) ≠ "" := by
  intro h
  have h2 : '₹' :: x.data = [] := congrArg String.data h
  cases h2

theorem rupee_ne_null (x : String) : ("₹" ++ x) ≠ "null" := by
  intro h
  have h2 : '₹' :: x.data = ['n', 'u', 'l', 'l'] := congrArg String.data h
  have h3 := (List.cons.injEq _ _ _ _).mp h2
  cases h3.1

theorem rupee_ne_undefined (x : String) : ("₹" ++ x) ≠ "undefined" := by
  intro h
  have h2 : '₹' :: x.data = "undefined".data := congrArg String.data h
  have h3 := (List.cons.injEq _ _ _ _).mp h2
  cases h3.1

theorem clean_rupee_eq {cap : List Char}
    (hch : ∀ c ∈ cap, c.isDigit = true ∨ c = ',' ∨ c = '.') :
    jsTrim (String.mk ((("₹" ++ stripCommas cap) : String).data.filter
      (fun c => !isCurrencyChar c))) = stripCommas cap := by
  have hmem : ∀ a ∈ cap.filter (fun c => c ≠ ','),
      a.isDigit = true ∨ a = '.' := by
    intro a ha
    rw [List.mem_filter] at ha
    rcases hch a ha.1 with hd | hcm | hdot
    · exact Or.inl hd
    · exact absurd hcm (decide_eq_true_eq.mp ha.2)
    · exact Or.inr hdot
  have hdata : (("₹" ++ stripCommas cap) : String).data
      = '₹' :: cap.filter (fun c => c ≠ ',') := rfl
  rw [hdata, List.filter_cons, if_neg (by decide)]
  have hfil : (cap.filter (fun c => c ≠ ',')).filter (fun c => !isCurrencyChar c)
      = cap.filter (fun c => c ≠ ',') := by
    rw [List.filter_eq_self]
    intro a ha
    rcases hmem a ha with hd | hdot
    · simp [digit_not_currency hd]
    · subst hdot; decide
  rw [hfil]
  unfold jsTrim
  rw [show (String.mk (cap.filter (fun c => c ≠ ','))).data
      = cap.filter (fun c => c ≠ ',') from rfl]
  rw [trimChars_eq_self_of_no_ws (by
    intro c hc
    rcases hmem c hc with hd | hdot
    · exact digit_not_whitespace hd
    · subst hdot; decide)]
  rfl

theorem formatPriceBlock_fields (q : Product) :
    (formatPriceBlock q).title = q.title ∧ (formatPriceBlock q).link = q.link ∧
    (formatPriceBlock q).source = q.source ∧
    (formatPriceBlock q).thumbnail = q.thumbnail := by
  unfold formatPriceBlock
  split
  · split_ifs
    · split
      · exact ⟨rfl, rfl, rfl, rfl⟩
      · exact ⟨rfl, rfl, rfl, rfl⟩
    · exact ⟨rfl, rfl, rfl, rfl⟩
    · exact ⟨rfl, rfl, rfl, rfl⟩
  · exact ⟨rfl, rfl, rfl, rfl⟩

theorem formatPriceBlock_of_missing {q : Product} (h : jsPriceMissing q.price = true) :
    formatPriceBlock q = q := by
  unfold formatPriceBlock
  split
  · next pr hpr =>
    rw [if_neg]
    rintro ⟨h1, h2, h3⟩
    unfold jsPriceMissing at h
    rw [hpr] at h
    rcases Bool.or_eq_true_iff.mp h with h4 | h4
    · rcases Bool.or_eq_true_iff.mp h4 with h5 | h5
      · exact h1 (by simpa [jsFalsy] using h5)
      · exact h2 (by simpa using h5)
    · exact h3 (by simpa using h4)
  · rfl

theorem formatPriceBlock_capture {q : Product} {cap : List Char}
    (hr : ∃ r, groupedDecimalAt r = some cap)
    (hq : q.price = some ("₹" ++ stripCommas cap)) :
    ∃ s, (formatPriceBlock q).price = some s ∧ isCanonicalPrice s = true := by
  rcases hr with ⟨r, hr⟩
  have hch := groupedDecimalAt_chars hr
  rcases groupedDecimalAt_parse_some hr with ⟨v, hv⟩
  have hclean := clean_rupee_eq hch
  unfold formatPriceBlock
  rw [hq]
  simp only []
  rw [if_pos ⟨rupee_ne_empty _, rupee_ne_null _, rupee_ne_undefined _⟩, hclean]
  have hne : stripCommas cap ≠ "" := by
    intro hc
    rw [hc] at hv
    exact Option.noConfusion hv
  rw [if_pos hne, hv]
  exact ⟨_, rfl, canonical_rupee_nat _⟩

theorem titleExtractStage_inv (p : Product) : priceInv (titleExtractStage p) p := by
  unfold titleExtractStage
  split_ifs with hm
  · cases hcap : titleCaptureOf p with
    | none =>
      have htap : titleApply p = p := by
        unfold titleApply
        rw [hcap]
      rw [htap, formatPriceBlock_of_missing hm]
      exact priceInv_refl p
    | some cap =>
      have htap : titleApply p = Product.mk p.title (some ("₹" ++ stripCommas cap)) p.link p.source p.thumbnail true := by
        unfold titleApply
        rw [hcap]
      rw [htap]
      have hf := formatPriceBlock_fields (Product.mk p.title (some ("₹" ++ stripCommas cap)) p.link p.source p.thumbnail true)
      obtain ⟨s, hs, hcan⟩ := formatPriceBlock_capture (titleCaptureOf_from_grouped hcap) (show (Product.mk p.title (some ("₹" ++ stripCommas cap)) p.link p.source p.thumbnail true).price = some ("₹" ++ stripCommas cap) from rfl)
      exact ⟨hf.1, hf.2.1, hf.2.2.1, hf.2.2.2, Or.inr ⟨s, hs, hcan⟩⟩
  · exact priceInv_refl p

theorem findIdx_beq_get {l : List Product} {t : Product} {i : ℕ}
    (h : l.findIdx? (fun x => x == t) = some i) :
    ∃ hi : i < l.length, l.get ⟨i, hi⟩ = t := by
  rw [List.findIdx?_eq_some_iff_getElem] at h
  rcases h with ⟨hi, hp, -⟩
  refine ⟨hi, ?_⟩
  rw [List.get_eq_getElem]
  exact eq_of_beq hp

theorem scrapeStep_inv (scrape : Product → Option ℕ)
    (products acc : List Product) (t : Product)
    (hlen : acc.length = products.length)
    (hinv : ∀ i (h1 : i < acc.length) (h2 : i < products.length),
      priceInv (acc.get ⟨i, h1⟩) (products.get ⟨i, h2⟩)) :
    (scrapeStep scrape products acc t).length = products.length ∧
    ∀ i (h1 : i < (scrapeStep scrape products acc t).length)
      (h2 : i < products.length),
      priceInv ((scrapeStep scrape products acc t).get ⟨i, h1⟩)
        (products.get ⟨i, h2⟩) := by
  have hstep : scrapeStep scrape products acc t = acc ∨
      ∃ oi : Fin products.length, products.get oi = t ∧
        scrapeStep scrape products acc t =
          acc.set oi.1 (fetchRealTimePrice scrape t) := by
    unfold scrapeStep
    cases hu : (fetchRealTimePrice scrape t).priceUpdated with
    | false => exact Or.inl (by simp)
    | true =>
      cases hfind : products.findIdx? (fun x => x == t) with
      | none => exact Or.inl (by simp)
      | some oi =>
        rcases findIdx_beq_get hfind with ⟨hoi, hget⟩
        exact Or.inr ⟨⟨oi, hoi⟩, hget, by simp⟩
  rcases hstep with heq | ⟨⟨oi, hoi⟩, hget, heq⟩
  · rw [heq]
    exact ⟨hlen, hinv⟩
  · rw [heq]
    constructor
    · rw [List.length_set]
      exact hlen
    · intro i h1 h2
      by_cases hio : oi = i
      · subst hio
        simp only [List.get_eq_getElem, List.getElem_set_self]
        have hEq : products.get ⟨oi, h2⟩ = t := hget
        rw [List.get_eq_getElem] at hEq
        rw [hEq]
        exact fetchRealTimePrice_inv scrape t
      · simp only [List.get_eq_getElem, List.getElem_set_ne hio]
        have h1b : i < acc.length := by
          rw [List.length_set] at h1
          exact h1
        have hres := hinv i h1b h2
        rw [List.get_eq_getElem, List.get_eq_getElem] at hres
        exact hres

theorem scrapeFold_inv (scrape : Product → Option ℕ) (products : List Product)
    (ts : List Product) :
    ∀ acc : List Product, acc.length = products.length →
    (∀ i (h1 : i < acc.length) (h2 : i < products.length),
      priceInv (acc.get ⟨i, h1⟩) (products.get ⟨i, h2⟩)) →
    (ts.foldl (scrapeStep scrape products) acc).length = products.length ∧
    ∀ i (h1 : i < (ts.foldl (scrapeStep scrape products) acc).length)
      (h2 : i < products.length),
      priceInv ((ts.foldl (scrapeStep scrape products) acc).get ⟨i, h1⟩)
        (products.get ⟨i, h2⟩) := by
  induction ts with
  | nil => intro acc hlen hinv; exact ⟨hlen, hinv⟩
  | cons t ts ih =>
    intro acc hlen hinv
    rw [List.foldl_cons]
    rcases scrapeStep_inv scrape products acc t hlen hinv with ⟨hl2, hi2⟩
    exact ih _ hl2 hi2

theorem scrapePhase_inv (scrape : Product → Option ℕ) (products : List Product) :
    (scrapePhase scrape products).length = products.length ∧
    ∀ i (h1 : i < (scrapePhase scrape products).length)
      (h2 : i < products.length),
      priceInv ((scrapePhase scrape products).get ⟨i, h1⟩)
        (products.get ⟨i, h2⟩) := by
  unfold scrapePhase
  exact scrapeFold_inv scrape products _ products rfl
    (fun i h1 h2 => priceInv_refl _)

theorem enhance_inv (scrape : Product → Option ℕ) (products : List Product) :
    (enhanceProductPrices scrape products).length = products.length ∧
    ∀ i (h1 : i < (enhanceProductPrices scrape products).length)
      (h2 : i < products.length),
      priceInv ((enhanceProductPrices scrape products).get ⟨i, h1⟩)
        (products.get ⟨i, h2⟩) := by
  have hs := scrapePhase_inv scrape products
  constructor
  · unfold enhanceProductPrices
    rw [List.length_map]
    exact hs.1
  · intro i h1 h2
    have h1b : i < (scrapePhase scrape products).length := by
      unfold enhanceProductPrices at h1
      rw [List.length_map] at h1
      exact h1
    have hmap : (enhanceProductPrices scrape products).get ⟨i, h1⟩ =
        titleExtractStage ((scrapePhase scrape products).get ⟨i, h1b⟩) := by
      unfold enhanceProductPrices
      simp [List.get_eq_getElem, List.getElem_map]
    rw [hmap]
    exact priceInv_trans (titleExtractStage_inv _) (hs.2 i h1b h2)

/-- C10: the Price Enhancer returns a list of the same length and order as its
input, and at every position all fields but the price — title, link, source
and thumbnail — are unchanged. -/
theorem C10_enhancer_frame (scrape : Product → Option ℕ) (products : List Product) :
    (enhanceProductPrices scrape products).length = products.length ∧
    ∀ i (h1 : i < (enhanceProductPrices scrape products).length)
      (h2 : i < products.length),
      ((enhanceProductPrices scrape products).get ⟨i, h1⟩).title =
        (products.get ⟨i, h2⟩).title ∧
      ((enhanceProductPrices scrape products).get ⟨i, h1⟩).link =
        (products.get ⟨i, h2⟩).link ∧
      ((enhanceProductPrices scrape products).get ⟨i, h1⟩).source =
        (products.get ⟨i, h2⟩).source ∧
      ((enhanceProductPrices scrape products).get ⟨i, h1⟩).thumbnail =
        (products.get ⟨i, h2⟩).thumbnail := by
  rcases enhance_inv scrape products with ⟨hlen, hinv⟩
  refine ⟨hlen, fun i h1 h2 => ?_⟩
  rcases hinv i h1 h2 with ⟨ht, hl, hsrc, hth, -⟩
  exact ⟨ht, hl, hsrc, hth⟩

/-- C8 amended: any price the enhancer CHANGES (live-scrape rewrite or
title extraction plus formatting) ends up in the canonical display format — a
single rupee sign followed by an integer with no decimals; prices already
present on the input pass through untouched and are NOT re-normalized. -/
theorem C8_enhancer_amended (scrape : Product → Option ℕ) (products : List Product) :
    (enhanceProductPrices scrape products).length = products.length ∧
    ∀ i (h1 : i < (enhanceProductPrices scrape products).length)
      (h2 : i < products.length),
      ((enhanceProductPrices scrape products).get ⟨i, h1⟩).price ≠
        (products.get ⟨i, h2⟩).price →
      ∃ s, ((enhanceProductPrices scrape products).get ⟨i, h1⟩).price = some s ∧
        isCanonicalPrice s = true := by
  rcases enhance_inv scrape products with ⟨hlen, hinv⟩
  refine ⟨hlen, fun i h1 h2 hne => ?_⟩
  rcases hinv i h1 h2 with ⟨-, -, -, -, hp⟩
  rcases hp with he | hc
  · exact absurd he hne
  · exact hc

/-- C8 counterexample: a provider price in grouped-decimal display form
(comma and paise digits) is NOT rewritten by the enhancer — the formatting
step only runs inside the missing-price branch — so the returned list carries
a price that is not in the canonical single-symbol integer format. -/
theorem C8_counterexample :
    enhanceProductPrices (fun _ => none)
      [⟨some "Floral Dress", some "₹1,299.00", none, some "Myntra", none, false⟩] =
      [⟨some "Floral Dress", some "₹1,299.00", none, some "Myntra", none, false⟩] ∧
    isCanonicalPrice "₹1,299.00" = false := by
  refine ⟨by decide, by decide⟩
